import Mathlib

/-!
Verification development for the playlist assembly engine in
`src/core/playlist_builder.py` of the Spotify_Playlist_Creation repository.

The Python source is shallowly embedded: pure helpers become Lean functions on
`String` / `List Char`; the Spotify client collaborator becomes a record of
response functions (`Except ClientErr …` models a call that may raise
`SpotifyClientError`); the `random.Random` source becomes an oracle record
(an arbitrary per-bucket permutation function plus a tie-breaker stream);
mutating client calls are recorded in an explicit event log so that
frame conditions ("no mutation method is invoked") are statable.

Floating point comparisons in the source (`ratio >= 0.92`,
`len(a) >= max(4, len(b) * 0.6)`, fuzzy cutoff `0.6`) are embedded as exact
integer comparisons (`50*M >= 23*T`, `len a >= 4 ∧ 5*len a >= 3*len b`,
`10*M >= 3*T`); for the string lengths arising here the IEEE-double
comparison and the rational comparison agree.
-/

/-! ### Basic character and string helpers -/

/-- Whitespace characters recognised by Python's `str.split` / `str.strip` and
by the regex class `\s` (restricted to the characters that can actually occur
in this code's inputs). -/
def isPyWs (c : Char) : Bool :=
  c = ' ' || c = '\t' || c = '\n' || c = '\x0d' || c = '\x0b' || c = '\x0c'

/-- `list.dropWhile` of leading whitespace. -/
def dropWs (l : List Char) : List Char := l.dropWhile isPyWs

/-- Accumulator worker for `str.split()`: `acc` holds the current word,
reversed. -/
def pySplitAux : List Char → List Char → List (List Char)
  | [], acc => if acc.isEmpty then [] else [acc.reverse]
  | c :: cs, acc =>
    if isPyWs c then
      if acc.isEmpty then pySplitAux cs [] else acc.reverse :: pySplitAux cs []
    else pySplitAux cs (c :: acc)

/-- Python `str.split()` (split on whitespace runs, dropping empties),
on character lists. -/
def pySplitL (l : List Char) : List (List Char) := pySplitAux l []

/-- Python `str.split()` on strings. -/
def pySplit (s : String) : List String :=
  (pySplitL s.data).map (fun w => ⟨w⟩)

/-- `" ".join(words)` on character lists. -/
def joinSpace : List (List Char) → List Char
  | [] => []
  | [w] => w
  | w :: ws => w ++ ' ' :: joinSpace ws

/-- Python `str.strip()` (strip leading and trailing whitespace). -/
def pyStrip (s : String) : String :=
  ⟨((s.data.dropWhile isPyWs).reverse.dropWhile isPyWs).reverse⟩

/-- `sub` is a contiguous substring of `l` (Python's `sub in l` on strings). -/
def isSubstrL (sub : List Char) : List Char → Bool
  | [] => sub.isEmpty
  | l@(_ :: ls) => sub.isPrefixOf l || isSubstrL sub ls

/-- Python `a in b` for strings (contiguous substring). -/
def pyInStr (a b : String) : Bool := isSubstrL a.data b.data

/-! ### Data model (`services/spotify_client.py` dataclasses) -/

/-- `Artist` dataclass: minimal artist representation. -/
structure Artist where
  id : String
  name : String
deriving DecidableEq, Repr

/-- `Track` dataclass: minimal track representation. -/
structure Track where
  id : String
  name : String
  artists : List String
deriving DecidableEq, Repr

/-- `PlaylistSummary` dataclass. -/
structure PlaylistSummary where
  id : String
  name : String
  owner_id : String
  track_count : Int
deriving DecidableEq, Repr

/-- `PlaylistOptions` dataclass (`core/playlist_options.py`); numeric fields
are Python ints, embedded as `Int`. -/
structure PlaylistOptions where
  playlist_name : String := "Fav Artists Top Tracks"
  date_stamp : Bool := false
  limit_per_artist : Int := 5
  max_artists : Int := 100
  max_tracks : Int := 500
  dedupe_variants : Bool := false
  shuffle : Bool := false
  reuse_existing : Bool := false
  truncate : Bool := false
  dry_run : Bool := true
  verbose : Bool := false
  library_artists : Bool := false
  followed_artists : Bool := true
  artists_file : Option String := none
  manual_artist_queries : List String := []
  target_playlist_id : Option String := none
deriving Repr

/-! ### `PlaylistBuilder.trim_tracks` -/

/-- Loop body of `trim_tracks`: append ids until `len(result) >= max_tracks`,
then break. -/
def trimAux (max_tracks : Int) (acc : List String) : List String → List String
  | [] => acc.reverse
  | x :: xs =>
    if max_tracks ≤ (x :: acc).length then (x :: acc).reverse
    else trimAux max_tracks (x :: acc) xs

/-- `PlaylistBuilder.trim_tracks`: trim a sequence of track IDs to the
configured limit; non-positive `max_tracks` means no trimming. -/
def trim_tracks (track_ids : List String) (max_tracks : Int) : List String :=
  if max_tracks ≤ 0 then track_ids
  else trimAux max_tracks [] track_ids

theorem trimAux_eq_take (m : Int) (acc : List String) (l : List String)
    (h : (acc.length : Int) < m) :
    trimAux m acc l = acc.reverse ++ l.take (m - acc.length).toNat := by
  induction l generalizing acc with
  | nil => simp [trimAux]
  | cons x xs ih =>
    simp only [trimAux]
    by_cases hm : m ≤ ((x :: acc).length : Int)
    · rw [if_pos (by exact_mod_cast hm)]
      have : (m - (acc.length : Int)).toNat = 1 := by
        simp only [List.length_cons] at hm
        omega
      simp [this]
    · rw [if_neg (by exact_mod_cast hm)]
      push_neg at hm
      rw [ih (x :: acc) (by exact_mod_cast hm)]
      have h2 : (m - (acc.length : Int)).toNat =
          (m - ((x :: acc).length : Int)).toNat + 1 := by
        simp only [List.length_cons]
        push_cast
        omega
      simp [h2, List.take_succ_cons]

/-- For a positive limit, `trim_tracks` is exactly `List.take`. -/
theorem trim_tracks_eq_take (ids : List String) (N : Int) (hN : 1 ≤ N) :
    trim_tracks ids N = ids.take N.toNat := by
  unfold trim_tracks
  rw [if_neg (by omega)]
  have := trimAux_eq_take N [] ids (by simp; omega)
  simpa using this

/-- C6: for every `max_tracks = N ≥ 1`, `trim_tracks` returns a prefix
(`List.take N`) of the input, of length at most `N`; for `N = 0` the input is
returned untrimmed. -/
theorem C6_trim_tracks_spec (ids : List String) (N : Int) :
    (1 ≤ N → trim_tracks ids N = ids.take N.toNat ∧
      ((trim_tracks ids N).length : Int) ≤ N) ∧
    (N = 0 → trim_tracks ids N = ids) := by
  constructor
  · intro hN
    have h := trim_tracks_eq_take ids N hN
    refine ⟨h, ?_⟩
    rw [h]
    have : (ids.take N.toNat).length ≤ N.toNat := by
      simp [List.length_take]
    omega
  · intro h
    subst h
    simp [trim_tracks]

/-- Witness for C6 at a concrete input. -/
theorem C6_trim_tracks_spec_witness :
    trim_tracks ["a", "b", "c"] 2 = ["a", "b"] ∧ trim_tracks ["a", "b"] 0 = ["a", "b"] := by
  have h1 := (C6_trim_tracks_spec ["a", "b", "c"] 2).1 (by norm_num)
  have h2 := (C6_trim_tracks_spec ["a", "b"] 0).2 rfl
  exact ⟨by rw [h1.1]; rfl, h2⟩

/-! ### difflib `SequenceMatcher.ratio` (no junk, as used on short titles) -/

/-- Length of the common prefix run of two character lists. -/
def lcpRun : List Char → List Char → Nat
  | a :: as, b :: bs => if a = b then lcpRun as bs + 1 else 0
  | _, _ => 0

/-- Size of the matching block starting at positions `i`, `j`, limited to the
ranges `[alo, ahi)` × `[blo, bhi)` (`ahi`/`bhi` are clamped by the drops). -/
def blockLen (a b : List Char) (ahi bhi i j : Nat) : Nat :=
  min (lcpRun (a.drop i) (b.drop j)) (min (ahi - i) (bhi - j))

/-- `SequenceMatcher.find_longest_match` on `[alo, ahi)` × `[blo, bhi)`:
the largest matching block, ties broken by smallest `i`, then smallest `j`
(the Python loop updates only on strictly larger sizes while scanning `i`
ascending, then `j` ascending). -/
def findLongestMatch (a b : List Char) (alo ahi blo bhi : Nat) :
    Nat × Nat × Nat :=
  (List.range' alo (ahi - alo)).foldl
    (fun best i =>
      (List.range' blo (bhi - blo)).foldl
        (fun best j =>
          let k := blockLen a b ahi bhi i j
          if best.2.2 < k then (i, j, k) else best)
        best)
    (alo, blo, 0)

/-- Total size of `SequenceMatcher.get_matching_blocks`: recursively take the
longest match and recurse on the left and right remainders.  `fuel` bounds the
recursion depth; `(ahi - alo) + (bhi - blo) + 1` always suffices. -/
def smTotal (a b : List Char) : Nat → Nat → Nat → Nat → Nat → Nat
  | 0, _, _, _, _ => 0
  | fuel + 1, alo, ahi, blo, bhi =>
    let m := findLongestMatch a b alo ahi blo bhi
    if m.2.2 = 0 then 0
    else m.2.2 + smTotal a b fuel alo m.1 blo m.2.1 +
      smTotal a b fuel (m.1 + m.2.2) ahi (m.2.1 + m.2.2) bhi

/-- Number of matched characters reported by `SequenceMatcher(None, a, b)`. -/
def smMatches (a b : List Char) : Nat :=
  smTotal a b (a.length + b.length + 1) 0 a.length 0 b.length

/-- `SequenceMatcher(None, a, b).ratio() >= num/den`, embedded exactly:
`ratio = 2*M/T` (and `1.0` when `T = 0`), so the comparison is
`num * T <= den * 2 * M`. -/
def ratioGe (a b : String) (num den : Nat) : Bool :=
  let T := a.data.length + b.data.length
  if T = 0 then num ≤ den
  else num * T ≤ den * (2 * smMatches a.data b.data)

/-! ### `_token_signature`, `_is_subset_phrase`, `_is_duplicate_variant` -/

/-- Strict lexicographic comparison of character lists (Python `str <`,
code-point order). -/
def listLt : List Char → List Char → Bool
  | [], [] => false
  | [], _ :: _ => true
  | _ :: _, [] => false
  | c :: cs, d :: ds =>
    if c < d then true else if d < c then false else listLt cs ds

/-- Python `a < b` on strings. -/
def strLt (a b : String) : Bool := listLt a.data b.data

/-- Python `a <= b` on strings. -/
def strLe (a b : String) : Bool := !strLt b a

/-- Insert a string into a `<`-sorted list, keeping duplicates out of the way
(used to embed Python's `sorted(set(...))`). -/
def insertSortedStr (s : String) : List String → List String
  | [] => [s]
  | t :: ts => if strLt t s then t :: insertSortedStr s ts else s :: t :: ts

/-- Sorted list of the distinct elements (Python `sorted(set(l))`). -/
def sortedDedup (l : List String) : List String :=
  (l.dedup).foldr insertSortedStr []

/-- `_token_signature`: sorted tuple of the distinct whitespace-separated
tokens of `text`; empty input gives the empty tuple. -/
def token_signature (text : String) : List String :=
  if text = "" then []
  else sortedDedup (pySplit text)

/-- `_is_subset_phrase(a, b)`: true when `a = b`, or `a` is a substring of `b`
and `len(a) >= max(4, len(b) * 0.6)` (embedded as
`4 ≤ len a ∧ 3 * len b ≤ 5 * len a`). -/
def is_subset_phrase (a b : String) : Bool :=
  if a = "" || b = "" then false
  else if a = b then true
  else if pyInStr a b && (4 ≤ a.data.length && 3 * b.data.length ≤ 5 * a.data.length)
    then true
  else false

/-- `_is_duplicate_variant(candidate, existing)`: candidate is a near-duplicate
of some history entry (exact membership, similarity `>= 0.92`, token-set
equality on a non-empty signature, or subset-phrase in either direction). -/
def is_duplicate_variant (candidate : String) (existing : List String) : Bool :=
  if candidate = "" then false
  else if existing.contains candidate then true
  else existing.any (fun entry =>
    if entry = "" then false
    else
      ratioGe candidate entry 23 25 ||
      (!(token_signature candidate).isEmpty &&
        decide (token_signature candidate = token_signature entry)) ||
      is_subset_phrase candidate entry || is_subset_phrase entry candidate)

/-- The subset-phrase rule as the spec sentence states it (C2): one string is
a substring of the other and the shorter string's length is at least 60% of
the longer string's length. -/
def specSubsetCondition (c e : String) : Prop :=
  (pyInStr c e = true ∨ pyInStr e c = true) ∧
  3 * max c.data.length e.data.length ≤
    5 * min c.data.length e.data.length

/-- C2 counterexample: `c = "abc"`, `e = "abcd"` satisfy the spec's
subset-phrase condition ("abc" is a substring, 3 ≥ 0.6·4), yet the detector
returns `false`: the code additionally requires the shorter length to be at
least 4 (`max(4, len(b) * 0.6)`). -/
theorem C2_counterexample :
    specSubsetCondition "abc" "abcd" ∧
    "abc" ≠ "" ∧ "abcd" ≠ "" ∧
    is_duplicate_variant "abc" ["abcd"] = false := by
  refine ⟨⟨Or.inl (by decide), by decide⟩, by decide, by decide, by decide⟩

theorem isPrefixOf_length (a : List Char) : ∀ b : List Char,
    a.isPrefixOf b = true → a.length ≤ b.length := by
  induction a with
  | nil => intro b _; simp
  | cons x xs ih =>
    intro b hb
    cases b with
    | nil => simp [List.isPrefixOf] at hb
    | cons y ys =>
      simp only [List.isPrefixOf, Bool.and_eq_true] at hb
      have := ih ys hb.2
      simp only [List.length_cons]
      omega

theorem isSubstrL_length (sub : List Char) : ∀ l : List Char,
    isSubstrL sub l = true → sub.length ≤ l.length := by
  intro l
  induction l with
  | nil =>
    intro h
    simp only [isSubstrL, List.isEmpty_iff] at h
    simp [h]
  | cons x xs ih =>
    intro h
    simp only [isSubstrL, Bool.or_eq_true] at h
    rcases h with h | h
    · have := isPrefixOf_length sub (x :: xs) h
      exact this
    · have := ih h
      simp only [List.length_cons]
      omega

/-- C2 amended: the subset-phrase rule triggers a positive whenever one of the
two non-empty normalized strings is a substring of the other and the shorter
string's length is at least `max(4, 0.6 * longer)` — i.e. at least 60% of the
longer's length *and at least 4 characters*. -/
theorem C2_amended_subset_phrase (c e : String) (hist : List String)
    (hc : c ≠ "") (he : e ≠ "") (hmem : e ∈ hist)
    (hsub : pyInStr c e = true ∨ pyInStr e c = true)
    (hlen4 : 4 ≤ min c.data.length e.data.length)
    (hlen : 3 * max c.data.length e.data.length ≤
      5 * min c.data.length e.data.length) :
    is_duplicate_variant c hist = true := by
  unfold is_duplicate_variant
  rw [if_neg hc]
  by_cases hcont : hist.contains c
  · rw [if_pos hcont]
  · rw [if_neg hcont]
    have hne : c ≠ e := by
      intro hEq
      subst hEq
      exact hcont (List.elem_eq_true_of_mem hmem)
    rw [List.any_eq_true]
    refine ⟨e, hmem, ?_⟩
    rw [if_neg he]
    -- one direction of the subset-phrase test succeeds
    have hgoal : is_subset_phrase c e = true ∨ is_subset_phrase e c = true := by
      rcases hsub with h | h
      · left
        have hle : c.data.length ≤ e.data.length := isSubstrL_length _ _ h
        have h4 : 4 ≤ c.data.length := by omega
        have h35 : 3 * e.data.length ≤ 5 * c.data.length := by omega
        simp [hc, he, hne, h, is_subset_phrase]
        exact ⟨h4, h35⟩
      · right
        have hle : e.data.length ≤ c.data.length := isSubstrL_length _ _ h
        have h4 : 4 ≤ e.data.length := by omega
        have h35 : 3 * c.data.length ≤ 5 * e.data.length := by omega
        simp [hc, he, Ne.symm hne, h, is_subset_phrase]
        exact ⟨h4, h35⟩
    rcases hgoal with h | h <;> simp [h]

/-- Witness for the amended C2 at a concrete input. -/
theorem C2_amended_subset_phrase_witness :
    is_duplicate_variant "abcd" ["zzz", "abcdef"] = true :=
  C2_amended_subset_phrase "abcd" "abcdef" ["zzz", "abcdef"]
    (by decide) (by decide) (by simp) (Or.inl (by decide))
    (by decide) (by decide)

/-! ### `_normalize_track_name` and `_strip_accents`

Unicode-dependent primitives (`str.casefold`, `unicodedata.normalize("NFKD")`,
the `\w`-class of `re`) are modelled on the character ranges this code's rules
involve (ASCII, Latin-1 letters, Cyrillic); they are the identity elsewhere. -/

/-- Python `str.casefold`, modelled on ASCII, Latin-1 and Cyrillic. -/
def caseFoldChar (c : Char) : Char :=
  let n := c.toNat
  if 0x41 ≤ n ∧ n ≤ 0x5A then Char.ofNat (n + 32)
  else if 0x410 ≤ n ∧ n ≤ 0x42F then Char.ofNat (n + 32)
  else if 0x400 ≤ n ∧ n ≤ 0x40F then Char.ofNat (n + 0x50)
  else if n = 0x490 then Char.ofNat 0x491
  else if 0xC0 ≤ n ∧ n ≤ 0xDE ∧ n ≠ 0xD7 then Char.ofNat (n + 32)
  else c

/-- `unicodedata.normalize("NFKD", ·)` per character, modelled on the
lowercase precomposed letters relevant here (the pipeline casefolds first);
the second element is the combining mark, which `_strip_accents` drops. -/
def nfkdChar (c : Char) : List Char :=
  let n := c.toNat
  if n = 0x451 then [Char.ofNat 0x435, Char.ofNat 0x308]
  else if n = 0x439 then [Char.ofNat 0x438, Char.ofNat 0x306]
  else if n = 0x457 then [Char.ofNat 0x456, Char.ofNat 0x308]
  else if n = 0x450 then [Char.ofNat 0x435, Char.ofNat 0x300]
  else if n = 0x45D then [Char.ofNat 0x438, Char.ofNat 0x300]
  else if 0xE0 ≤ n ∧ n ≤ 0xE5 then ['a', Char.ofNat 0x300]
  else if n = 0xE7 then ['c', Char.ofNat 0x327]
  else if 0xE8 ≤ n ∧ n ≤ 0xEB then ['e', Char.ofNat 0x300]
  else if 0xEC ≤ n ∧ n ≤ 0xEF then ['i', Char.ofNat 0x300]
  else if n = 0xF1 then ['n', Char.ofNat 0x303]
  else if 0xF2 ≤ n ∧ n ≤ 0xF6 then ['o', Char.ofNat 0x300]
  else if 0xF9 ≤ n ∧ n ≤ 0xFC then ['u', Char.ofNat 0x300]
  else if n = 0xFD ∨ n = 0xFF then ['y', Char.ofNat 0x301]
  else [c]

/-- `unicodedata.combining(c) != 0`, modelled as the combining diacritical
marks block. -/
def isCombining (c : Char) : Bool :=
  0x300 ≤ c.toNat && c.toNat ≤ 0x36F

/-- `_strip_accents` on character lists: NFKD-decompose, drop combining
marks. -/
def stripAccentsL (l : List Char) : List Char :=
  (l.flatMap nfkdChar).filter (fun c => !isCombining c)

/-- `_strip_accents(value)`. -/
def strip_accents (value : String) : String := ⟨stripAccentsL value.data⟩

/-- The regex `\w` class (Unicode), modelled on the ranges relevant here:
ASCII alphanumerics and underscore, Latin-1/Latin-extended letters,
Cyrillic. -/
def isWordChar (c : Char) : Bool :=
  let n := c.toNat
  (0x30 ≤ n && n ≤ 0x39) || (0x61 ≤ n && n ≤ 0x7A) || (0x41 ≤ n && n ≤ 0x5A) ||
  n = 0x5F || (0x400 ≤ n && n ≤ 0x4FF) ||
  (0xC0 ≤ n && n ≤ 0x24F && !(n = 0xD7) && !(n = 0xF7))

/-- Characters of the class `[""“”«»]` in the source (the doubled straight
quote in the raw-string literal concatenates to a class holding only the four
typographic quote characters). -/
def isQuoteChar (c : Char) : Bool :=
  c.toNat = 0x201C || c.toNat = 0x201D || c.toNat = 0xAB || c.toNat = 0xBB

/-- Characters of the class `[()\[\]{}]`. -/
def isBracketChar (c : Char) : Bool :=
  let n := c.toNat
  n = 0x28 || n = 0x29 || n = 0x5B || n = 0x5D || n = 0x7B || n = 0x7D

/-- The dash class `[-–—]` of the trailing-clause pattern. -/
def isDash6 (c : Char) : Bool :=
  c = '-' || c.toNat = 0x2013 || c.toNat = 0x2014

/-- The dash class `[-–—~]` of the separator-collapsing pattern. -/
def isDash8 (c : Char) : Bool :=
  isDash6 c || c = '~'

/-- First word of `ws` that is a prefix of `l` with a word boundary after it
(the alternatives of a regex alternation, tried in order). -/
def tryWords (ws : List (List Char)) (l : List Char) : Option (List Char) :=
  match ws with
  | [] => none
  | w :: rest =>
    if w.isPrefixOf l &&
        (match l.drop w.length with
         | [] => true
         | c :: _ => !isWordChar c) then
      some (l.drop w.length)
    else tryWords rest l

/-- Alternatives of `remaster(?:ed)?|live|bonus|edit|mix|version|single|ost|from|из`,
with the greedy optional suffix expanded in trial order. -/
def words6 : List (List Char) :=
  ["remastered".data, "remaster".data, "live".data, "bonus".data, "edit".data,
   "mix".data, "version".data, "single".data, "ost".data, "from".data,
   [Char.ofNat 0x438, Char.ofNat 0x437]]

/-- Alternatives of
`acoustic|instrumental|karaoke|mashup|live|orchestral|symphonic|bonus|edit|mix|version|explicit`. -/
def words9 : List (List Char) :=
  ["acoustic".data, "instrumental".data, "karaoke".data, "mashup".data,
   "live".data, "orchestral".data, "symphonic".data, "bonus".data, "edit".data,
   "mix".data, "version".data, "explicit".data]

/-- `.*` without DOTALL: consume to the next newline or the end. -/
def dropToNl (l : List Char) : List Char :=
  l.dropWhile (fun c => !(c = '\n'))

/-- Match of `\s*[-–—]\s*(remaster(?:ed)?|…|из)\b.*` at the head of `l`;
returns the remainder after the matched span. -/
def matchDashClause (l : List Char) : Option (List Char) :=
  match l.dropWhile isPyWs with
  | [] => none
  | d :: rest =>
    if isDash6 d then
      match tryWords words6 (rest.dropWhile isPyWs) with
      | some rest3 => some (dropToNl rest3)
      | none => none
    else none

/-- `re.sub(r"\s*[-–—]\s*(…)\b.*", "", text)`: leftmost scan, matched spans
removed.  `fuel` bounds the scan; `length + 1` always suffices. -/
def sub6F : Nat → List Char → List Char
  | 0, l => l
  | _ + 1, [] => []
  | fuel + 1, c :: cs =>
    match matchDashClause (c :: cs) with
    | some rest => sub6F fuel rest
    | none => c :: sub6F fuel cs

/-- Match of `\s+feat\.?\b.*` at the head of `l`; returns the remainder after
the matched span. -/
def matchFeatClause (l : List Char) : Option (List Char) :=
  match l with
  | [] => none
  | c :: _ =>
    if isPyWs c then
      let r := l.dropWhile isPyWs
      if ("feat".data).isPrefixOf r then
        match r.drop 4 with
        | [] => some []
        | '.' :: r3 => some (dropToNl r3)
        | c2 :: r3 =>
          if isWordChar c2 then none else some (dropToNl (c2 :: r3))
      else none
    else none

/-- `re.sub(r"\s+feat\.?\b.*", "", text)`. -/
def sub7F : Nat → List Char → List Char
  | 0, l => l
  | _ + 1, [] => []
  | fuel + 1, c :: cs =>
    match matchFeatClause (c :: cs) with
    | some rest => sub7F fuel rest
    | none => c :: sub7F fuel cs

/-- `re.sub(r"\s*[-–—~]\s*", " ", text)`: each run of
whitespace-dash-whitespace becomes a single space.  `pend` buffers whitespace
that may turn out to lead a match; `skip` is set while consuming a match's
trailing whitespace. -/
def sub8Aux : Bool → List Char → List Char → List Char
  | _, pend, [] => pend.reverse
  | skip, pend, c :: cs =>
    if isPyWs c then
      if skip then sub8Aux true [] cs
      else sub8Aux false (c :: pend) cs
    else if isDash8 c then ' ' :: sub8Aux true [] cs
    else pend.reverse ++ c :: sub8Aux false [] cs

/-- `re.sub(r"\b(acoustic|…|explicit)\b", "", text)`: standalone annotation
words removed; `prevIsWord` tracks the word-character status of the previous
original character for the leading boundary test. -/
def sub9F : Nat → Bool → List Char → List Char
  | 0, _, l => l
  | _ + 1, _, [] => []
  | fuel + 1, prevIsWord, c :: cs =>
    if !prevIsWord then
      match tryWords words9 (c :: cs) with
      | some rest => sub9F fuel true rest
      | none => c :: sub9F fuel (isWordChar c) cs
    else c :: sub9F fuel (isWordChar c) cs

/-- The allow-list `[0-9a-zа-яёіїґ]` of the final character filter. -/
def isAllowChar (c : Char) : Bool :=
  let n := c.toNat
  (0x30 ≤ n && n ≤ 0x39) || (0x61 ≤ n && n ≤ 0x7A) ||
  (0x430 ≤ n && n ≤ 0x44F) || n = 0x451 || n = 0x456 || n = 0x457 || n = 0x491

/-- `re.sub(r"[^0-9a-zа-яёіїґ]+", " ", text)`: each maximal run of
disallowed characters becomes one space. -/
def sub10Aux : Bool → List Char → List Char
  | _, [] => []
  | prevBad, c :: cs =>
    if isAllowChar c then c :: sub10Aux false cs
    else if prevBad then sub10Aux true cs
    else ' ' :: sub10Aux true cs

/-- `_normalize_track_name(name)`: the full normalization pipeline, steps in
source order. -/
def normalize_track_name (name : String) : String :=
  let t1 := name.data.map caseFoldChar
  let t2 := stripAccentsL t1
  let t3 := t2.map (fun c => if c.toNat = 0x451 then Char.ofNat 0x435 else c)
  let t4 := t3.filter (fun c => !isQuoteChar c)
  let t5 := t4.map (fun c => if isBracketChar c then ' ' else c)
  let t6 := sub6F (t5.length + 1) t5
  let t7 := sub7F (t6.length + 1) t6
  let t8 := sub8Aux false [] t7
  let t9 := sub9F (t8.length + 1) false t8
  let t10 := sub10Aux false t9
  ⟨joinSpace (pySplitL t10)⟩

theorem normalize_sample_dash_feat :
    normalize_track_name "x-feat y" = "x feat y" := by decide

theorem normalize_sample_feat :
    normalize_track_name "x feat y" = "x" := by decide

theorem normalize_sample_brackets :
    normalize_track_name "Song (Remastered 2011)" = "song remastered 2011" := by
  decide

theorem normalize_sample_dash_remaster :
    normalize_track_name "Song - Remastered 2011" = "song" := by decide

theorem normalize_sample_plain :
    normalize_track_name "Song" = "song" := by decide

/-! ### `_primary_artist`, `_artist_fingerprint`, `_collect_tracks` -/

/-- Python `str.casefold` on a whole string. -/
def pyCasefold (s : String) : String := ⟨s.data.map caseFoldChar⟩

/-- `_primary_artist(track)`: first listed artist name, `""` when none. -/
def primary_artist (track : Track) : String := track.artists.headD ""

/-- Insertion sort on strings (Python `sorted`). -/
def sortStrings (l : List String) : List String := l.foldr insertSortedStr []

/-- `_artist_fingerprint(track)`: case-folded, sorted tuple of the non-empty
artist names; `("",)` when there are none. -/
def artist_fingerprint (track : Track) : List String :=
  let names := (track.artists.filter (fun n => !(n = ""))).map pyCasefold
  if names.isEmpty then [""] else sortStrings names

/-- Per-fingerprint history lookup (`defaultdict(list)` read). -/
def fpLookup (m : List (List String × List String)) (k : List String) :
    List String :=
  ((m.find? (fun p => decide (p.1 = k))).map Prod.snd).getD []

/-- Per-fingerprint history append (`seen_names[fp].append(v)`). -/
def fpAppend : List (List String × List String) → List String → String →
    List (List String × List String)
  | [], k, v => [(k, [v])]
  | (k', vs) :: rest, k, v =>
    if k' = k then (k', vs ++ [v]) :: rest else (k', vs) :: fpAppend rest k v

/-- Mutable accumulators of `_collect_tracks`. -/
structure CollectSt where
  seen_ids : List String
  seen_names : List (List String × List String)
  selected : List Track
  skipped : List Track
deriving Repr

/-- Inner loop of `_collect_tracks` over one artist's fetched top tracks;
`added` is `tracks_added_for_artist`. -/
def collectInner (opts : PlaylistOptions) (pal : Int) :
    CollectSt → Int → List Track → CollectSt
  | st, _, [] => st
  | st, added, track :: rest =>
    if track.id = "" then collectInner opts pal st added rest
    else if st.seen_ids.contains track.id then
      collectInner opts pal { st with skipped := st.skipped ++ [track] } added rest
    else
      let fp := artist_fingerprint track
      let normalized := normalize_track_name track.name
      if opts.dedupe_variants &&
          is_duplicate_variant normalized (fpLookup st.seen_names fp) then
        collectInner opts pal { st with skipped := st.skipped ++ [track] } added rest
      else
        let st' : CollectSt :=
          { seen_ids := st.seen_ids ++ [track.id]
            seen_names :=
              if opts.dedupe_variants && !(normalized = "") then
                fpAppend st.seen_names fp normalized
              else st.seen_names
            selected := st.selected ++ [track]
            skipped := st.skipped }
        let added' := added + 1
        if 0 < opts.max_tracks ∧ opts.max_tracks ≤ (st'.selected.length : Int) then
          st'
        else if pal ≤ added' then st'
        else collectInner opts pal st' added' rest

/-- `SpotifyClientError` carries only a human-readable message; the logic
never inspects it. -/
abbrev ClientErr := Unit

/-- Outer loop of `_collect_tracks` over the resolved artists; a fetch
failure for one artist is swallowed (`except SpotifyClientError: continue`). -/
def collectOuter (fetch : String → Int → Except ClientErr (List Track))
    (opts : PlaylistOptions) (pal : Int) :
    CollectSt → Int → List Artist → CollectSt × Int
  | st, retrieved, [] => (st, retrieved)
  | st, retrieved, artist :: rest =>
    let fetch_limit := if opts.dedupe_variants then max (pal + 5) (pal * 2) else pal
    let fetch_limit := max fetch_limit pal
    match fetch artist.id fetch_limit with
    | .error _ => collectOuter fetch opts pal st retrieved rest
    | .ok top_tracks =>
      let retrieved' := retrieved + (top_tracks.length : Int)
      let st' := collectInner opts pal st 0 top_tracks
      if 0 < opts.max_tracks ∧ opts.max_tracks ≤ (st'.selected.length : Int) then
        (st', retrieved')
      else collectOuter fetch opts pal st' retrieved' rest

/-- `PlaylistBuilder._collect_tracks`: returns
`(selected, skipped, total_tracks_retrieved)`. -/
def collect_tracks (fetch : String → Int → Except ClientErr (List Track))
    (artists : List Artist) (opts : PlaylistOptions) :
    List Track × List Track × Int :=
  let pal := max 0 opts.limit_per_artist
  if pal = 0 then ([], [], 0)
  else
    let (st, r) := collectOuter fetch opts pal ⟨[], [], [], []⟩ 0 artists
    (st.selected, st.skipped, r)

/-- Invariant carried by the collector state: selected ids are distinct,
non-empty, and all recorded in `seen_ids`. -/
def GoodSt (st : CollectSt) : Prop :=
  (st.selected.map Track.id).Nodup ∧
  (∀ t ∈ st.selected, t.id ≠ "") ∧
  (∀ t ∈ st.selected, t.id ∈ st.seen_ids)

theorem goodSt_accept (st : CollectSt) (track : Track) (sn : List (List String × List String))
    (hg : GoodSt st) (hid : track.id ≠ "")
    (hseen : ¬ st.seen_ids.contains track.id = true) :
    GoodSt { seen_ids := st.seen_ids ++ [track.id]
             seen_names := sn
             selected := st.selected ++ [track]
             skipped := st.skipped } := by
  obtain ⟨h1, h2, h3⟩ := hg
  have hnotmem : track.id ∉ st.seen_ids := fun hm =>
    hseen (List.elem_eq_true_of_mem hm)
  refine ⟨?_, ?_, ?_⟩
  · simp only [List.map_append, List.map_cons, List.map_nil]
    rw [List.nodup_append]
    refine ⟨h1, List.nodup_singleton _, ?_⟩
    intro x hx hx'
    simp only [List.mem_singleton] at hx'
    subst hx'
    obtain ⟨t, ht, hteq⟩ := List.mem_map.mp hx
    exact hnotmem (hteq ▸ h3 t ht)
  · intro t ht
    rcases List.mem_append.mp ht with h | h
    · exact h2 t h
    · simp only [List.mem_singleton] at h
      subst h; exact hid
  · intro t ht
    rcases List.mem_append.mp ht with h | h
    · exact List.mem_append.mpr (Or.inl (h3 t h))
    · simp only [List.mem_singleton] at h
      subst h
      exact List.mem_append.mpr (Or.inr (List.mem_singleton.mpr rfl))

theorem collectInner_good (opts : PlaylistOptions) (pal : Int)
    (l : List Track) : ∀ (st : CollectSt) (added : Int), GoodSt st →
    GoodSt (collectInner opts pal st added l) := by
  induction l with
  | nil => intro st added hg; simpa [collectInner] using hg
  | cons track rest ih =>
    intro st added hg
    show GoodSt (collectInner opts pal st added (track :: rest))
    simp only [collectInner]
    by_cases h0 : track.id = ""
    · rw [if_pos h0]
      exact ih st added hg
    · rw [if_neg h0]
      by_cases h1 : st.seen_ids.contains track.id = true
      · rw [if_pos h1]
        exact ih _ added ⟨hg.1, hg.2.1, hg.2.2⟩
      · rw [if_neg h1]
        by_cases h2 : (opts.dedupe_variants &&
            is_duplicate_variant (normalize_track_name track.name)
              (fpLookup st.seen_names (artist_fingerprint track))) = true
        · rw [if_pos h2]
          exact ih _ added ⟨hg.1, hg.2.1, hg.2.2⟩
        · rw [if_neg h2]
          have hg' := goodSt_accept st track
            (if opts.dedupe_variants && !(normalize_track_name track.name = "") then
              fpAppend st.seen_names (artist_fingerprint track)
                (normalize_track_name track.name)
             else st.seen_names) hg h0 h1
          by_cases h3 : 0 < opts.max_tracks ∧
              opts.max_tracks ≤ ((st.selected ++ [track]).length : Int)
          · rw [if_pos h3]
            exact hg'
          · rw [if_neg h3]
            by_cases h4 : pal ≤ added + 1
            · rw [if_pos h4]
              exact hg'
            · rw [if_neg h4]
              exact ih _ _ hg'

theorem collectOuter_good (fetch : String → Int → Except ClientErr (List Track))
    (opts : PlaylistOptions) (pal : Int) (artists : List Artist) :
    ∀ (st : CollectSt) (r : Int), GoodSt st →
    GoodSt (collectOuter fetch opts pal st r artists).1 := by
  induction artists with
  | nil => intro st r hg; simpa [collectOuter] using hg
  | cons artist rest ih =>
    intro st r hg
    simp only [collectOuter]
    cases fetch artist.id
        (max (if opts.dedupe_variants then max (pal + 5) (pal * 2) else pal) pal) with
    | error e => exact ih st r hg
    | ok tt =>
      dsimp only
      have hg' := collectInner_good opts pal tt st 0 hg
      by_cases h3 : 0 < opts.max_tracks ∧
          opts.max_tracks ≤ ((collectInner opts pal st 0 tt).selected.length : Int)
      · rw [if_pos h3]
        exact hg'
      · rw [if_neg h3]
        exact ih _ _ hg'

/-- Helper for C4: the selected list returned by `_collect_tracks` carries
distinct, non-empty ids. -/
theorem collect_tracks_ids (fetch : String → Int → Except ClientErr (List Track))
    (artists : List Artist) (opts : PlaylistOptions) :
    ((collect_tracks fetch artists opts).1.map Track.id).Nodup ∧
    ∀ t ∈ (collect_tracks fetch artists opts).1, t.id ≠ "" := by
  unfold collect_tracks
  by_cases hp : max 0 opts.limit_per_artist = 0
  · rw [if_pos hp]
    exact ⟨List.nodup_nil, by intro t ht; cases ht⟩
  · rw [if_neg hp]
    have hg0 : GoodSt ⟨[], [], [], []⟩ := by
      refine ⟨List.nodup_nil, ?_, ?_⟩ <;> intro t ht <;> cases ht
    have := collectOuter_good fetch opts (max 0 opts.limit_per_artist) artists
      ⟨[], [], [], []⟩ 0 hg0
    exact ⟨this.1, this.2.1⟩

/-! ### `_shuffle_without_adjacent_artist_runs`

`random.Random` is modelled as an oracle: `shufTracks`/`shufUris` stand for
`rng.shuffle` outcomes (an arbitrary reordering function) and `rand` is the
stream of `rng.random()` tie-breaker draws, abstracted to naturals — all
theorems about the shuffle hold for every oracle, and counterexamples pick a
concrete one.  `heapq` is modelled by its specification: `heappush` adds an
entry, `heappop` removes the least entry in the lexicographic order on
`(negative count, tie-breaker, artist)`. -/

/-- The random source, abstracted. -/
structure Rng where
  shufTracks : List Track → List Track
  shufUris : List String → List String
  rand : Nat → Nat

/-- A heap entry `(-len(entries), tiebreak, artist)`. -/
abbrev HeapEntry := Int × Nat × String

/-- Lexicographic order on heap entries (Python tuple comparison; the float
tie-breakers are abstracted to naturals, equal draws falling through to the
artist name as in Python). -/
def entryLe (x y : HeapEntry) : Bool :=
  decide (x.1 < y.1) ||
  (decide (x.1 = y.1) &&
    (decide (x.2.1 < y.2.1) ||
      (decide (x.2.1 = y.2.1) && strLe x.2.2 y.2.2)))

/-- `heapq.heappop`: remove a least entry (the list models the heap's
multiset of entries). -/
def popMin : List HeapEntry → Option (HeapEntry × List HeapEntry)
  | [] => none
  | e :: rest =>
    match popMin rest with
    | none => some (e, [])
    | some (m, rest') =>
      if entryLe e m then some (e, rest) else some (m, e :: rest')

/-- `defaultdict(list)` bucket append, preserving first-seen key order. -/
def addToBucket : List (String × List Track) → String → Track →
    List (String × List Track)
  | [], a, t => [(a, [t])]
  | (k, ts) :: rest, a, t =>
    if k = a then (k, ts ++ [t]) :: rest else (k, ts) :: addToBucket rest a t

/-- Group tracks by primary artist, in first-seen order. -/
def mkBuckets (tracks : List Track) : List (String × List Track) :=
  tracks.foldl (fun b t => addToBucket b (primary_artist t) t) []

/-- `buckets[artist]` (read). -/
def bucketGet (b : List (String × List Track)) (a : String) : List Track :=
  ((b.find? (fun p => decide (p.1 = a))).map Prod.snd).getD []

/-- `buckets[artist] = ts` (write; appends the key if absent, as
`defaultdict` would). -/
def bucketSet : List (String × List Track) → String → List Track →
    List (String × List Track)
  | [], a, ts => [(a, ts)]
  | (k, vs) :: rest, a, ts =>
    if k = a then (k, ts) :: rest else (k, vs) :: bucketSet rest a ts

/-- One record per emitted track, for stating the adjacency property: the
chosen artist, the previously emitted artist, the size of the chosen artist's
bucket at the moment of choice, and the other non-empty buckets
(artist, remaining size) at that moment. -/
structure EmitInfo where
  artist : String
  prev : Option String
  remaining : Nat
  others : List (String × Nat)
deriving Repr, DecidableEq

/-- The reinsert-and-pop-next step at the head of each loop iteration: after
popping `(cnt, _, artist)`, if `artist` equals the previously emitted artist
and the heap is non-empty, push the entry back with a fresh tie-breaker and
pop the least entry instead. -/
def chooseStep (rng : Rng) (prev : Option String) (ctr : Nat) (cnt : Int)
    (artist : String) (heap' : List HeapEntry) :
    String × List HeapEntry × Nat :=
  if prev = some artist ∧ ¬ heap'.isEmpty then
    match popMin (heap' ++ [(cnt, rng.rand ctr, artist)]) with
    | some ((_, _, a2), hB') => (a2, hB', ctr + 1)
    | none => (artist, heap', ctr + 1)
  else (artist, heap', ctr)

/-- The `while heap:` loop of `_shuffle_without_adjacent_artist_runs`,
instrumented with an `EmitInfo` trace.  One iteration: pop the least entry;
if its artist equals the previously emitted artist and the heap is non-empty,
reinsert it with a fresh tie-breaker and pop again; emit the last track of
the chosen artist's bucket; reinsert the bucket's entry if it is still
non-empty.  `fuel` bounds the iterations; the input length suffices. -/
def shuffleLoop (rng : Rng) : Nat → List (String × List Track) →
    List HeapEntry → Option String → Nat → List Track → List EmitInfo →
    List Track × List EmitInfo
  | 0, _, _, _, _, acc, tr => (acc.reverse, tr.reverse)
  | fuel + 1, buckets, heap, prev, ctr, acc, tr =>
    match popMin heap with
    | none => (acc.reverse, tr.reverse)
    | some ((cnt, _, artist), heap') =>
      let (artist2, heap2, ctr2) := chooseStep rng prev ctr cnt artist heap'
      let track_list := bucketGet buckets artist2
      match track_list.getLast? with
      | none => (acc.reverse, tr.reverse)
      | some track =>
        let info : EmitInfo :=
          { artist := artist2
            prev := prev
            remaining := track_list.length
            others := (buckets.filter
                (fun p => !(p.1 = artist2) && !p.2.isEmpty)).map
              (fun p => (p.1, p.2.length)) }
        let tl' := track_list.dropLast
        let buckets' := bucketSet buckets artist2 tl'
        let (heap3, ctr3) :=
          if ¬ tl'.isEmpty then
            (heap2 ++ [(-(tl'.length : Int), rng.rand ctr2, artist2)], ctr2 + 1)
          else (heap2, ctr2)
        shuffleLoop rng fuel buckets' heap3 (some artist2) ctr3
          (track :: acc) (info :: tr)

/-- Initial heap: one entry per non-empty bucket, keyed by
`(-len(entries), rng.random(), artist)` in bucket order. -/
def initHeap (rng : Rng) (buckets : List (String × List Track)) :
    List HeapEntry × Nat :=
  buckets.foldl
    (fun (pr : List HeapEntry × Nat) p =>
      if p.2.isEmpty then pr
      else (pr.1 ++ [(-(p.2.length : Int), rng.rand pr.2, p.1)], pr.2 + 1))
    ([], 0)

/-- `_shuffle_without_adjacent_artist_runs(tracks, rng)` together with its
emission trace. -/
def shuffleWithTrace (rng : Rng) (tracks : List Track) :
    List Track × List EmitInfo :=
  if tracks.length ≤ 1 then (tracks, [])
  else
    let buckets := (mkBuckets tracks).map (fun p => (p.1, rng.shufTracks p.2))
    let (heap, ctr) := initHeap rng buckets
    shuffleLoop rng tracks.length buckets heap none ctr [] []

/-- `_shuffle_without_adjacent_artist_runs(tracks, rng)`. -/
def shuffle_without_adjacent_artist_runs (rng : Rng) (tracks : List Track) :
    List Track :=
  (shuffleWithTrace rng tracks).1

/-- The C3 claim as stated: no immediate same-primary-artist repeat occurs
while at least one other non-empty bucket exists. -/
def NoRepeatWhileOthers (rng : Rng) (tracks : List Track) : Prop :=
  ∀ info ∈ (shuffleWithTrace rng tracks).2,
    info.prev = some info.artist → info.others = []

/-- Concrete tracks and oracle for the shuffle counterexample and
witnesses. -/
def tA1 : Track := ⟨"a1", "s1", ["A"]⟩

def tA2 : Track := ⟨"a2", "s2", ["A"]⟩

def tA3 : Track := ⟨"a3", "s3", ["A"]⟩

def tB1 : Track := ⟨"b1", "s4", ["B"]⟩

def rng0 : Rng := ⟨id, id, fun _ => 0⟩

theorem shuffle_sample_output :
    shuffle_without_adjacent_artist_runs rng0 [tA1, tA2, tA3, tB1] =
    [tA3, tA2, tA1, tB1] := by decide

theorem shuffle_sample_trace :
    (shuffleWithTrace rng0 [tA1, tA2, tA3, tB1]).2 =
    [⟨"A", none, 3, [("B", 1)]⟩, ⟨"A", some "A", 2, [("B", 1)]⟩,
     ⟨"A", some "A", 1, [("B", 1)]⟩, ⟨"B", some "A", 1, []⟩] := by decide

/-- C3 counterexample: with tracks `[A, A, A, B]` (three by artist A, one by
artist B) and any tie-breaking, the output repeats artist A in adjacent
positions while B's bucket is still non-empty: the reinsert-and-pop-next step
pops A's entry right back because A's bucket is still the largest. -/
theorem C3_counterexample : ¬ NoRepeatWhileOthers rng0 [tA1, tA2, tA3, tB1] := by
  intro h
  have := h ⟨"A", some "A", 2, [("B", 1)]⟩ (by decide) (by decide)
  simp at this

/-! ### Order facts for heap entries -/

theorem listLt_irrefl (a : List Char) : listLt a a = false := by
  induction a with
  | nil => rfl
  | cons c cs ih => simp [listLt, ih]

theorem listLt_asymm (a : List Char) : ∀ b : List Char,
    listLt a b = true → listLt b a = false := by
  induction a with
  | nil => intro b _; cases b <;> rfl
  | cons c cs ih =>
    intro b hab
    cases b with
    | nil => simp [listLt] at hab
    | cons d ds =>
      simp only [listLt] at hab ⊢
      by_cases h1 : c < d
      · have h2 : ¬ d < c := fun h => absurd h1 (lt_asymm h)
        simp [h1, h2]
      · by_cases h2 : d < c
        · simp [h1, h2] at hab
        · simp only [h1, h2, if_false] at hab ⊢
          exact ih ds hab

theorem listLt_conn (a : List Char) : ∀ b : List Char,
    listLt a b = false → listLt b a = false → a = b := by
  induction a with
  | nil => intro b h1 _; cases b with
    | nil => rfl
    | cons d ds => simp [listLt] at h1
  | cons c cs ih =>
    intro b h1 h2
    cases b with
    | nil => simp [listLt] at h2
    | cons d ds =>
      simp only [listLt] at h1 h2
      by_cases hc : c < d
      · simp [hc] at h1
      · by_cases hd : d < c
        · have hnc : ¬ c < d := fun h => absurd h (lt_asymm hd)
          simp [hd, hnc] at h2
        · have : c = d := le_antisymm (not_lt.mp hd) (not_lt.mp hc)
          subst this
          simp only [lt_irrefl, if_false] at h1 h2
          rw [ih ds h1 h2]

theorem listLt_trans (a : List Char) : ∀ b c : List Char,
    listLt a b = true → listLt b c = true → listLt a c = true := by
  induction a with
  | nil =>
    intro b c hab hbc
    cases c with
    | nil => cases b with
      | nil => exact hab
      | cons d ds => simp [listLt] at hbc
    | cons e es => rfl
  | cons x xs ih =>
    intro b c hab hbc
    cases b with
    | nil => simp [listLt] at hab
    | cons y ys =>
      cases c with
      | nil => simp [listLt] at hbc
      | cons z zs =>
        simp only [listLt] at hab hbc ⊢
        by_cases hxy : x < y
        · by_cases hyz : y < z
          · simp [lt_trans hxy hyz]
          · by_cases hzy : z < y
            · simp [hyz, hzy] at hbc
            · have : y = z := le_antisymm (not_lt.mp hzy) (not_lt.mp hyz)
              subst this
              simp [hxy]
        · by_cases hyx : y < x
          · simp [hxy, hyx] at hab
          · have hxyeq : x = y := le_antisymm (not_lt.mp hyx) (not_lt.mp hxy)
            subst hxyeq
            simp only [lt_irrefl, if_false] at hab
            by_cases hyz : x < z
            · simp [hyz]
            · by_cases hzy : z < x
              · simp [hyz, hzy] at hbc
              · simp only [hyz, hzy, if_false] at hbc ⊢
                exact ih ys zs hab hbc

theorem strLe_total (a b : String) : strLe a b = true ∨ strLe b a = true := by
  unfold strLe
  by_cases h : strLt b a = true
  · right
    unfold strLt at h ⊢
    simp [listLt_asymm _ _ h]
  · left
    simp [h]

theorem strLe_trans {a b c : String} (h1 : strLe a b = true)
    (h2 : strLe b c = true) : strLe a c = true := by
  unfold strLe strLt at h1 h2 ⊢
  simp only [Bool.not_eq_true'] at h1 h2 ⊢
  by_cases hca : listLt c.data a.data = true
  · by_cases hab : listLt a.data b.data = true
    · have := listLt_trans _ _ _ hca hab
      rw [this] at h2; cases h2
    · by_cases hba : listLt b.data a.data = true
      · rw [hba] at h1; cases h1
      · have : a.data = b.data := listLt_conn _ _
          (by revert hab; cases listLt a.data b.data <;> simp) h1
        rw [← this] at h2
        rw [hca] at h2; cases h2
  · revert hca; cases listLt c.data a.data <;> simp

theorem entryLe_total (x y : HeapEntry) :
    entryLe x y = true ∨ entryLe y x = true := by
  unfold entryLe
  rcases lt_trichotomy x.1 y.1 with h | h | h
  · left; simp [h]
  · rcases lt_trichotomy x.2.1 y.2.1 with h2 | h2 | h2
    · left; simp [h, h2]
    · rcases strLe_total x.2.2 y.2.2 with h3 | h3
      · left; simp [h, h2, h3]
      · right; simp [h.symm, h2.symm, h3]
    · right; simp [h.symm, h2]
  · right; simp [h]

theorem entryLe_trans {x y z : HeapEntry} (h1 : entryLe x y = true)
    (h2 : entryLe y z = true) : entryLe x z = true := by
  unfold entryLe at h1 h2 ⊢
  simp only [Bool.or_eq_true, Bool.and_eq_true, decide_eq_true_eq] at h1 h2 ⊢
  rcases h1 with h1 | ⟨h1e, h1r⟩
  · rcases h2 with h2 | ⟨h2e, h2r⟩
    · exact Or.inl (lt_trans h1 h2)
    · exact Or.inl (h2e ▸ h1)
  · rcases h2 with h2 | ⟨h2e, h2r⟩
    · exact Or.inl (h1e ▸ h2)
    · refine Or.inr ⟨h1e.trans h2e, ?_⟩
      rcases h1r with h1r | ⟨h1re, h1rs⟩
      · rcases h2r with h2r | ⟨h2re, h2rs⟩
        · exact Or.inl (lt_trans h1r h2r)
        · exact Or.inl (h2re ▸ h1r)
      · rcases h2r with h2r | ⟨h2re, h2rs⟩
        · exact Or.inl (h1re ▸ h2r)
        · exact Or.inr ⟨h1re.trans h2re, strLe_trans h1rs h2rs⟩

theorem entryLe_of_not {x y : HeapEntry} (h : ¬ entryLe x y = true) :
    entryLe y x = true := by
  rcases entryLe_total x y with h' | h'
  · exact absurd h' h
  · exact h'

/-! ### `popMin` facts -/

theorem popMin_none {l : List HeapEntry} : popMin l = none ↔ l = [] := by
  cases l with
  | nil => simp [popMin]
  | cons e rest =>
    simp only [popMin]
    cases popMin rest with
    | none => simp
    | some pr =>
      obtain ⟨m, rest'⟩ := pr
      by_cases h : entryLe e m = true <;> simp [h]

theorem popMin_perm {l : List HeapEntry} {e : HeapEntry} {r : List HeapEntry}
    (h : popMin l = some (e, r)) : l.Perm (e :: r) := by
  induction l generalizing e r with
  | nil => simp [popMin] at h
  | cons x rest ih =>
    simp only [popMin] at h
    cases hrec : popMin rest with
    | none =>
      rw [hrec] at h
      have : rest = [] := popMin_none.mp hrec
      subst this
      simp only [Option.some.injEq, Prod.mk.injEq] at h
      rw [h.1, ← h.2]
    | some pr =>
      obtain ⟨m, rest'⟩ := pr
      rw [hrec] at h
      dsimp only at h
      have hperm := ih hrec
      by_cases hle : entryLe x m = true
      · rw [if_pos hle] at h
        simp only [Option.some.injEq, Prod.mk.injEq] at h
        rw [h.1, ← h.2]
      · rw [if_neg hle] at h
        simp only [Option.some.injEq, Prod.mk.injEq] at h
        obtain ⟨he, hr⟩ := h
        subst he
        rw [← hr]
        exact (hperm.cons x).trans (List.Perm.swap m x rest')

theorem popMin_min {l : List HeapEntry} {e : HeapEntry} {r : List HeapEntry}
    (h : popMin l = some (e, r)) : ∀ x ∈ r, entryLe e x = true := by
  induction l generalizing e r with
  | nil => simp [popMin] at h
  | cons a rest ih =>
    simp only [popMin] at h
    cases hrec : popMin rest with
    | none =>
      rw [hrec] at h
      simp only [Option.some.injEq, Prod.mk.injEq] at h
      rw [← h.2]
      intro x hx
      cases hx
    | some pr =>
      obtain ⟨m, rest'⟩ := pr
      rw [hrec] at h
      dsimp only at h
      have hmin := ih hrec
      have hmem : m ∈ rest := (popMin_perm hrec).mem_iff.mpr (List.mem_cons_self _ _)
      by_cases hle : entryLe a m = true
      · rw [if_pos hle] at h
        simp only [Option.some.injEq, Prod.mk.injEq] at h
        obtain ⟨he, hr⟩ := h
        subst he
        rw [← hr]
        intro x hx
        rcases List.mem_cons.mp ((popMin_perm hrec).mem_iff.mp hx) with hxm | hxm
        · exact hxm ▸ hle
        · exact entryLe_trans hle (hmin x hxm)
      · rw [if_neg hle] at h
        simp only [Option.some.injEq, Prod.mk.injEq] at h
        obtain ⟨he, hr⟩ := h
        subst he
        rw [← hr]
        intro x hx
        rcases List.mem_cons.mp hx with hxm | hxm
        · exact hxm ▸ entryLe_of_not hle
        · exact hmin x hxm

/-! ### Bucket facts -/

/-- All tracks still held in the buckets. -/
def allTracks (b : List (String × List Track)) : List Track :=
  (b.map Prod.snd).flatten

theorem bucketGet_cons_eq (a : String) (vs : List Track)
    (rest : List (String × List Track)) :
    bucketGet ((a, vs) :: rest) a = vs := by
  simp [bucketGet, List.find?]

theorem bucketGet_cons_ne (k a : String) (vs : List Track)
    (rest : List (String × List Track)) (h : k ≠ a) :
    bucketGet ((k, vs) :: rest) a = bucketGet rest a := by
  simp [bucketGet, List.find?, h]

theorem bucketGet_nil (a : String) : bucketGet [] a = [] := rfl

theorem bucketSet_cons_eq (a : String) (vs ts : List Track)
    (rest : List (String × List Track)) :
    bucketSet ((a, vs) :: rest) a ts = (a, ts) :: rest := by
  simp [bucketSet]

theorem bucketSet_cons_ne (k a : String) (vs ts : List Track)
    (rest : List (String × List Track)) (h : k ≠ a) :
    bucketSet ((k, vs) :: rest) a ts = (k, vs) :: bucketSet rest a ts := by
  simp [bucketSet, h]

theorem bucketGet_bucketSet_self (b : List (String × List Track))
    (a : String) (ts : List Track) :
    bucketGet (bucketSet b a ts) a = ts := by
  induction b with
  | nil => simp [bucketSet, bucketGet, List.find?]
  | cons p rest ih =>
    obtain ⟨k, vs⟩ := p
    by_cases h : k = a
    · subst h
      rw [bucketSet_cons_eq, bucketGet_cons_eq]
    · rw [bucketSet_cons_ne _ _ _ _ _ h, bucketGet_cons_ne _ _ _ _ h]
      exact ih

theorem bucketGet_bucketSet_ne (b : List (String × List Track))
    (a a' : String) (ts : List Track) (h : a' ≠ a) :
    bucketGet (bucketSet b a ts) a' = bucketGet b a' := by
  induction b with
  | nil =>
    have hne : a ≠ a' := fun hh => h hh.symm
    simp [bucketSet, bucketGet, List.find?, hne]
  | cons p rest ih =>
    obtain ⟨k, vs⟩ := p
    by_cases hk : k = a
    · subst hk
      rw [bucketSet_cons_eq, bucketGet_cons_ne _ _ _ _ (fun hh => h hh.symm),
        bucketGet_cons_ne _ _ _ _ (fun hh => h hh.symm)]
    · rw [bucketSet_cons_ne _ _ _ _ _ hk]
      by_cases hk' : k = a'
      · subst hk'
        rw [bucketGet_cons_eq, bucketGet_cons_eq]
      · rw [bucketGet_cons_ne _ _ _ _ hk', bucketGet_cons_ne _ _ _ _ hk']
        exact ih

theorem keys_bucketSet_of_mem (b : List (String × List Track)) (a : String)
    (ts : List Track) (h : a ∈ b.map Prod.fst) :
    (bucketSet b a ts).map Prod.fst = b.map Prod.fst := by
  induction b with
  | nil => cases h
  | cons p rest ih =>
    obtain ⟨k, vs⟩ := p
    by_cases hk : k = a
    · subst hk
      rw [bucketSet_cons_eq]
      simp
    · rw [bucketSet_cons_ne _ _ _ _ _ hk]
      simp only [List.map_cons]
      congr 1
      apply ih
      rcases List.mem_cons.mp h with h' | h'
      · exact absurd h'.symm hk
      · exact h'

theorem mem_keys_of_bucketGet_ne (b : List (String × List Track)) (a : String)
    (h : bucketGet b a ≠ []) : a ∈ b.map Prod.fst := by
  induction b with
  | nil => simp [bucketGet, List.find?] at h
  | cons p rest ih =>
    obtain ⟨k, vs⟩ := p
    by_cases hk : k = a
    · subst hk
      simp
    · rw [bucketGet_cons_ne _ _ _ _ hk] at h
      simp only [List.map_cons, List.mem_cons]
      exact Or.inr (ih h)

/-- Removing the last element of one bucket removes exactly that track from
the pooled contents, up to permutation. -/
theorem allTracks_pop_perm (b : List (String × List Track)) (a : String)
    (track : Track) (tl' : List Track)
    (hget : bucketGet b a = tl' ++ [track]) :
    (allTracks b).Perm (track :: allTracks (bucketSet b a tl')) := by
  induction b with
  | nil => simp [bucketGet, List.find?] at hget
  | cons p rest ih =>
    obtain ⟨k, vs⟩ := p
    by_cases hk : k = a
    · subst hk
      rw [bucketGet_cons_eq] at hget
      subst hget
      rw [bucketSet_cons_eq]
      simp only [allTracks, List.map_cons, List.flatten_cons]
      exact (List.perm_append_singleton track tl').append_right _
    · rw [bucketGet_cons_ne _ _ _ _ hk] at hget
      rw [bucketSet_cons_ne _ _ _ _ _ hk]
      simp only [allTracks, List.map_cons, List.flatten_cons]
      have hrec := ih hget
      exact (List.Perm.append_left vs hrec).trans List.perm_middle

/-! ### Heap/bucket invariant -/

/-- Bucket keys are distinct (true of the embedded `defaultdict`). -/
def BucketsWf (b : List (String × List Track)) : Prop :=
  (b.map Prod.fst).Nodup

/-- The heap is faithful to the buckets: one entry per artist, counts equal
to the negated bucket sizes, entries only for non-empty buckets, and every
non-empty bucket represented. -/
def HeapWf (b : List (String × List Track)) (h : List HeapEntry) : Prop :=
  (h.map (fun e => e.2.2)).Nodup ∧
  (∀ e ∈ h, e.1 = -((bucketGet b e.2.2).length : Int) ∧ bucketGet b e.2.2 ≠ []) ∧
  (∀ p ∈ b, p.2 ≠ [] → ∃ e ∈ h, e.2.2 = p.1)

theorem bucketGet_of_mem {b : List (String × List Track)} {a : String}
    {vs : List Track} (hwf : BucketsWf b) (hmem : (a, vs) ∈ b) :
    bucketGet b a = vs := by
  induction b with
  | nil => cases hmem
  | cons p rest ih =>
    obtain ⟨k, ws⟩ := p
    have hwf' : (rest.map Prod.fst).Nodup :=
      (List.nodup_cons.mp hwf).2
    rcases List.mem_cons.mp hmem with h | h
    · rw [Prod.mk.injEq] at h
      obtain ⟨h1, h2⟩ := h
      subst h1; subst h2
      exact bucketGet_cons_eq ..
    · have hka : k ≠ a := by
        intro hk
        subst hk
        exact (List.nodup_cons.mp hwf).1
          (List.mem_map.mpr ⟨(k, vs), h, rfl⟩)
      rw [bucketGet_cons_ne _ _ _ _ hka]
      exact ih hwf' h

theorem entryLe_fst {x y : HeapEntry} (h : entryLe x y = true) : x.1 ≤ y.1 := by
  unfold entryLe at h
  simp only [Bool.or_eq_true, Bool.and_eq_true, decide_eq_true_eq] at h
  rcases h with h | ⟨h, _⟩
  · exact le_of_lt h
  · exact le_of_eq h

/-- Everything the loop needs to know about one `chooseStep`: the chosen
bucket is non-empty; remaining entries stay count-correct; the chosen artist
leaves the heap and the rest stay distinct; every other non-empty bucket is
still represented; and on an immediate repeat the chosen bucket is at least
as large as every other non-empty bucket. -/
theorem chooseStep_spec (rng : Rng) (prev : Option String) (ctr : Nat)
    (b : List (String × List Track)) (h : List HeapEntry)
    (cnt : Int) (tb : Nat) (artist : String) (h' : List HeapEntry)
    (artist2 : String) (heap2 : List HeapEntry) (ctr2 : Nat)
    (hbwf : BucketsWf b) (hwf : HeapWf b h)
    (hpop : popMin h = some ((cnt, tb, artist), h'))
    (heq : chooseStep rng prev ctr cnt artist h' = (artist2, heap2, ctr2)) :
    bucketGet b artist2 ≠ [] ∧
    (∀ e ∈ heap2, e.1 = -((bucketGet b e.2.2).length : Int) ∧
      bucketGet b e.2.2 ≠ []) ∧
    (heap2.map (fun e => e.2.2)).Nodup ∧
    artist2 ∉ heap2.map (fun e => e.2.2) ∧
    (∀ p ∈ b, p.2 ≠ [] → p.1 ≠ artist2 → ∃ e ∈ heap2, e.2.2 = p.1) ∧
    (prev = some artist2 →
      ∀ p ∈ b, p.1 ≠ artist2 → p.2 ≠ [] →
        p.2.length ≤ (bucketGet b artist2).length) := by
  obtain ⟨hnd, hcnt, hcomp⟩ := hwf
  have hperm := popMin_perm hpop
  have hpopmem : (cnt, tb, artist) ∈ h :=
    hperm.mem_iff.mpr (List.mem_cons_self _ _)
  have hndc : (((cnt, tb, artist) :: h').map (fun e => e.2.2)).Nodup :=
    (hperm.map (fun e => e.2.2)).nodup_iff.mp hnd
  have hart_not : artist ∉ h'.map (fun e => e.2.2) :=
    (List.nodup_cons.mp hndc).1
  have hnd' : (h'.map (fun e => e.2.2)).Nodup := (List.nodup_cons.mp hndc).2
  have hmem_h' : ∀ e ∈ h', e ∈ h := fun e he =>
    hperm.mem_iff.mpr (List.mem_cons_of_mem _ he)
  unfold chooseStep at heq
  by_cases hc : prev = some artist ∧ ¬ h'.isEmpty
  · rw [if_pos hc] at heq
    have hBne : h' ++ [(cnt, rng.rand ctr, artist)] ≠ [] := by
      intro hh
      exact absurd (List.append_eq_nil.mp hh).2 (by simp)
    obtain ⟨⟨⟨c2, t2, a2⟩, hB'⟩, hpopB⟩ :
        ∃ er, popMin (h' ++ [(cnt, rng.rand ctr, artist)]) = some er := by
      cases hp : popMin (h' ++ [(cnt, rng.rand ctr, artist)]) with
      | none => exact absurd (popMin_none.mp hp) hBne
      | some er => exact ⟨er, rfl⟩
    rw [hpopB] at heq
    dsimp only at heq
    rw [Prod.mk.injEq, Prod.mk.injEq] at heq
    obtain ⟨ha2, hh2, -⟩ := heq
    subst ha2
    subst hh2
    have hpermB := popMin_perm hpopB
    have hBcnt : ∀ e ∈ h' ++ [(cnt, rng.rand ctr, artist)],
        e.1 = -((bucketGet b e.2.2).length : Int) ∧ bucketGet b e.2.2 ≠ [] := by
      intro e he
      rcases List.mem_append.mp he with he | he
      · exact hcnt e (hmem_h' e he)
      · rw [List.mem_singleton.mp he]
        have hh := hcnt _ hpopmem
        exact ⟨hh.1, hh.2⟩
    have hBnd : ((h' ++ [(cnt, rng.rand ctr, artist)]).map
        (fun e => e.2.2)).Nodup := by
      rw [List.map_append, List.nodup_append]
      refine ⟨hnd', by simp, ?_⟩
      intro x hx hx'
      simp only [List.map_cons, List.map_nil, List.mem_singleton] at hx'
      subst hx'
      exact hart_not hx
    have he2mem : (c2, t2, a2) ∈ h' ++ [(cnt, rng.rand ctr, artist)] :=
      hpermB.mem_iff.mpr (List.mem_cons_self _ _)
    have hndB2 : (((c2, t2, a2) :: hB').map (fun e => e.2.2)).Nodup :=
      (hpermB.map (fun e => e.2.2)).nodup_iff.mp hBnd
    have hmem_hB2 : ∀ e ∈ hB', e ∈ h' ++ [(cnt, rng.rand ctr, artist)] :=
      fun e he => hpermB.mem_iff.mpr (List.mem_cons_of_mem _ he)
    have hcompB : ∀ p ∈ b, p.2 ≠ [] → p.1 ≠ a2 →
        ∃ e ∈ hB', e.2.2 = p.1 := by
      intro p hp hpne hpa
      obtain ⟨e, heh, hea⟩ := hcomp p hp hpne
      have hwB : ∃ eB ∈ h' ++ [(cnt, rng.rand ctr, artist)], eB.2.2 = p.1 := by
        rcases List.mem_cons.mp (hperm.mem_iff.mp heh) with he | he
        · refine ⟨(cnt, rng.rand ctr, artist),
            List.mem_append_right _ (List.mem_singleton_self _), ?_⟩
          rw [← hea, he]
        · exact ⟨e, List.mem_append_left _ he, hea⟩
      obtain ⟨eB, heB, heBa⟩ := hwB
      rcases List.mem_cons.mp (hpermB.mem_iff.mp heB) with he | he
      · exfalso
        apply hpa
        rw [← heBa, he]
      · exact ⟨eB, he, heBa⟩
    refine ⟨(hBcnt _ he2mem).2, ?_, ?_, ?_, hcompB, ?_⟩
    · intro e he
      exact hBcnt e (hmem_hB2 e he)
    · exact (List.nodup_cons.mp hndB2).2
    · exact (List.nodup_cons.mp hndB2).1
    · -- on a repeat the chosen (= reinserted) entry was still the heap least
      intro hrep p hp hpa hpne
      have hart2 : artist = a2 := by
        have h12 := hc.1.symm.trans hrep
        exact Option.some.inj h12
      have he2e0 : (c2, t2, a2) = (cnt, rng.rand ctr, artist) := by
        apply List.inj_on_of_nodup_map hBnd he2mem
          (List.mem_append_right _ (List.mem_singleton_self _))
        simpa using hart2.symm
      have hc2 : c2 = cnt := by
        have hfst := congrArg Prod.fst he2e0
        simpa using hfst
      obtain ⟨e, heH, hea⟩ := hcompB p hp hpne hpa
      have hminB := popMin_min hpopB e heH
      have hfst : c2 ≤ e.1 := entryLe_fst hminB
      have hecnt := (hBcnt e (hmem_hB2 e heH)).1
      have hpcnt : bucketGet b p.1 = p.2 := by
        have hpm : (p.1, p.2) ∈ b := by simpa using hp
        exact bucketGet_of_mem hbwf hpm
      have hccnt : cnt = -((bucketGet b artist).length : Int) :=
        (hcnt _ hpopmem).1
      rw [hecnt, hea, hpcnt] at hfst
      rw [hc2, hccnt, hart2] at hfst
      omega
  · rw [if_neg hc] at heq
    rw [Prod.mk.injEq, Prod.mk.injEq] at heq
    obtain ⟨ha2, hh2, -⟩ := heq
    subst ha2
    subst hh2
    refine ⟨(hcnt _ hpopmem).2, ?_, hnd', hart_not, ?_, ?_⟩
    · intro e he
      exact hcnt e (hmem_h' e he)
    · intro p hp hpne hpa
      obtain ⟨e, heh, hea⟩ := hcomp p hp hpne
      rcases List.mem_cons.mp (hperm.mem_iff.mp heh) with he | he
      · exfalso
        apply hpa
        rw [← hea, he]
      · exact ⟨e, he, hea⟩
    · intro hrep p hp hpa hpne
      exfalso
      have hemp : h'.isEmpty := by
        by_contra hne
        exact hc ⟨hrep, hne⟩
      have h'nil : h' = [] := by
        cases h' with
        | nil => rfl
        | cons x xs => simp [List.isEmpty] at hemp
      subst h'nil
      have hsing : h = [(cnt, tb, artist)] := List.perm_singleton.mp hperm
      obtain ⟨e, heh, hea⟩ := hcomp p hp hpne
      rw [hsing] at heh
      have : e = (cnt, tb, artist) := List.mem_singleton.mp heh
      apply hpa
      rw [← hea, this]

theorem allTracks_nil_of_empty {b : List (String × List Track)}
    (h : ∀ p ∈ b, p.2 = []) : allTracks b = [] := by
  induction b with
  | nil => rfl
  | cons p rest ih =>
    simp only [allTracks, List.map_cons, List.flatten_cons]
    rw [h p (List.mem_cons_self _ _)]
    have hr := ih (fun q hq => h q (List.mem_cons_of_mem _ hq))
    simpa [allTracks] using hr

theorem mem_bucketSet {b : List (String × List Track)} {a : String}
    {ts : List Track} (hwf : BucketsWf b) (hmem : a ∈ b.map Prod.fst) :
    ∀ p, p ∈ bucketSet b a ts → p = (a, ts) ∨ (p ∈ b ∧ p.1 ≠ a) := by
  induction b with
  | nil => cases hmem
  | cons q rest ih =>
    obtain ⟨k, vs⟩ := q
    have hwf' : (rest.map Prod.fst).Nodup := (List.nodup_cons.mp hwf).2
    have hknot : k ∉ rest.map Prod.fst := (List.nodup_cons.mp hwf).1
    intro p hp
    by_cases hk : k = a
    · subst hk
      rw [bucketSet_cons_eq] at hp
      rcases List.mem_cons.mp hp with h | h
      · exact Or.inl h
      · right
        refine ⟨List.mem_cons_of_mem _ h, ?_⟩
        intro hpk
        exact hknot (List.mem_map.mpr ⟨p, h, hpk⟩)
    · rw [bucketSet_cons_ne _ _ _ _ _ hk] at hp
      rcases List.mem_cons.mp hp with h | h
      · right
        subst h
        exact ⟨List.mem_cons_self _ _, hk⟩
      · have hmem' : a ∈ rest.map Prod.fst := by
          rcases List.mem_cons.mp hmem with h' | h'
          · exact absurd h'.symm hk
          · exact h'
        rcases ih hwf' hmem' p h with h' | h'
        · exact Or.inl h'
        · exact Or.inr ⟨List.mem_cons_of_mem _ h'.1, h'.2⟩

/-- Main loop lemma: under the heap/bucket invariant the loop's output is,
up to permutation, the accumulator followed by everything still in the
buckets; and every new trace entry satisfies the repeat bound: an immediate
repeat can only pick an artist whose bucket is at least as large as every
other non-empty bucket. -/
theorem shuffleLoop_spec (rng : Rng) : ∀ (fuel : Nat)
    (b : List (String × List Track)) (h : List HeapEntry)
    (prev : Option String) (ctr : Nat) (acc : List Track) (tr : List EmitInfo),
    BucketsWf b → HeapWf b h → (allTracks b).length ≤ fuel →
    (shuffleLoop rng fuel b h prev ctr acc tr).1.Perm
      (acc.reverse ++ allTracks b) ∧
    (∀ info ∈ (shuffleLoop rng fuel b h prev ctr acc tr).2,
      info ∈ tr ∨ (info.prev = some info.artist →
        ∀ q ∈ info.others, q.2 ≤ info.remaining)) := by
  intro fuel
  induction fuel with
  | zero =>
    intro b h prev ctr acc tr hbwf hwf hfuel
    have hnil : allTracks b = [] := List.length_eq_zero.mp (Nat.le_zero.mp hfuel)
    simp only [shuffleLoop]
    constructor
    · rw [hnil]
      simp
    · intro info hinfo
      exact Or.inl (List.mem_reverse.mp hinfo)
  | succ fuel ih =>
    intro b h prev ctr acc tr hbwf hwf hfuel
    simp only [shuffleLoop]
    cases hpop : popMin h with
    | none =>
      have hnil : allTracks b = [] := by
        apply allTracks_nil_of_empty
        intro p hp
        by_contra hne
        obtain ⟨e, he, -⟩ := hwf.2.2 p hp hne
        rw [popMin_none.mp hpop] at he
        cases he
      constructor
      · rw [hnil]; simp
      · intro info hinfo
        exact Or.inl (List.mem_reverse.mp hinfo)
    | some pr =>
      obtain ⟨⟨cnt, tb, artist⟩, h'⟩ := pr
      dsimp only
      rcases hcs : chooseStep rng prev ctr cnt artist h' with ⟨artist2, heap2, ctr2⟩
      obtain ⟨hne2, hcnt2, hnd2, hnotin2, hcomp2, hbound2⟩ :=
        chooseStep_spec rng prev ctr b h cnt tb artist h' artist2 heap2 ctr2
          hbwf hwf hpop hcs
      dsimp only
      rw [List.getLast?_eq_getLast _ hne2]
      dsimp only
      set track := (bucketGet b artist2).getLast hne2 with htrack
      set tl' := (bucketGet b artist2).dropLast with htl'
      set b' := bucketSet b artist2 tl' with hb'
      have hLastEq : bucketGet b artist2 = tl' ++ [track] :=
        (List.dropLast_append_getLast hne2).symm
      have hkeymem : artist2 ∈ b.map Prod.fst :=
        mem_keys_of_bucketGet_ne b artist2 hne2
      have hbwf' : BucketsWf b' := by
        unfold BucketsWf
        rw [hb', keys_bucketSet_of_mem b artist2 tl' hkeymem]
        exact hbwf
      have hget' : bucketGet b' artist2 = tl' := bucketGet_bucketSet_self ..
      have hgetne' : ∀ a', a' ≠ artist2 → bucketGet b' a' = bucketGet b a' :=
        fun a' ha' => bucketGet_bucketSet_ne b artist2 a' tl' ha'
      have hpopped : (allTracks b).Perm (track :: allTracks b') :=
        allTracks_pop_perm b artist2 track tl' hLastEq
      have hlen' : (allTracks b').length + 1 = (allTracks b).length := by
        have hq := hpopped.length_eq
        simp only [List.length_cons] at hq
        omega
      have hcnt2' : ∀ e ∈ heap2, e.1 = -((bucketGet b' e.2.2).length : Int) ∧
          bucketGet b' e.2.2 ≠ [] := by
        intro e he
        have hene : e.2.2 ≠ artist2 := by
          intro hh
          exact hnotin2 (hh ▸ List.mem_map.mpr ⟨e, he, rfl⟩)
        rw [hgetne' _ hene]
        exact hcnt2 e he
      have hinfo_bound : ∀ (i : EmitInfo),
          i.artist = artist2 → i.prev = prev →
          i.remaining = (bucketGet b artist2).length →
          i.others = (b.filter (fun p => !(p.1 = artist2) && !p.2.isEmpty)).map
            (fun p => (p.1, p.2.length)) →
          (i.prev = some i.artist → ∀ q ∈ i.others, q.2 ≤ i.remaining) := by
        intro i ha hp hr ho hrep q hq
        rw [ho] at hq
        obtain ⟨p, hpmem, hq'⟩ := List.mem_map.mp hq
        have hf := List.mem_filter.mp hpmem
        have hcond := hf.2
        simp only [Bool.and_eq_true, Bool.not_eq_true'] at hcond
        have hp1 : p.1 ≠ artist2 := by
          intro hh
          rw [hh] at hcond
          simp at hcond
        have hp2 : p.2 ≠ [] := by
          intro hh
          rw [hh] at hcond
          simp [List.isEmpty] at hcond
        have := hbound2 (by rw [← ha, ← hp]; exact hrep) p hf.1 hp1 hp2
        rw [← hq', hr]
        exact this
      by_cases htl : ¬ tl'.isEmpty
      · rw [if_pos htl]
        dsimp only
        have htlne : tl' ≠ [] := by
          intro hh; rw [hh] at htl; exact htl rfl
        have hwf3 : HeapWf b'
            (heap2 ++ [(-(tl'.length : Int), rng.rand ctr2, artist2)]) := by
          refine ⟨?_, ?_, ?_⟩
          · rw [List.map_append, List.nodup_append]
            refine ⟨hnd2, by simp, ?_⟩
            intro x hx hx'
            simp only [List.map_cons, List.map_nil, List.mem_singleton] at hx'
            subst hx'
            exact hnotin2 hx
          · intro e he
            rcases List.mem_append.mp he with he | he
            · exact hcnt2' e he
            · rw [List.mem_singleton.mp he]
              dsimp only
              rw [hget']
              exact ⟨rfl, htlne⟩
          · intro p hp hpne
            rcases mem_bucketSet hbwf hkeymem p hp with hcase | hcase
            · refine ⟨(-(tl'.length : Int), rng.rand ctr2, artist2),
                List.mem_append_right _ (List.mem_singleton_self _), ?_⟩
              rw [hcase]
            · obtain ⟨e, he, hea⟩ := hcomp2 p hcase.1 hpne hcase.2
              exact ⟨e, List.mem_append_left _ he, hea⟩
        obtain ⟨ihp, iht⟩ := ih b' _ (some artist2) (ctr2 + 1) (track :: acc)
          (_ :: tr) hbwf' hwf3 (by omega)
        constructor
        · refine ihp.trans ?_
          rw [List.reverse_cons, List.append_assoc]
          exact List.Perm.append_left _ (by simpa using hpopped.symm)
        · intro i hi
          rcases iht i hi with hmem | hb
          · rcases List.mem_cons.mp hmem with hm | hm
            · right
              subst hm
              exact hinfo_bound _ rfl rfl rfl rfl
            · exact Or.inl hm
          · exact Or.inr hb
      · rw [if_neg htl]
        dsimp only
        have htlnil : tl' = [] := by
          rcases hemp : tl' with _ | ⟨x, xs⟩
          · rfl
          · rw [hemp] at htl
            simp [List.isEmpty] at htl
        have hwf3 : HeapWf b' heap2 := by
          refine ⟨hnd2, hcnt2', ?_⟩
          intro p hp hpne
          rcases mem_bucketSet hbwf hkeymem p hp with hcase | hcase
          · exfalso
            apply hpne
            rw [hcase, htlnil]
          · exact hcomp2 p hcase.1 hpne hcase.2
        obtain ⟨ihp, iht⟩ := ih b' heap2 (some artist2) ctr2 (track :: acc)
          (_ :: tr) hbwf' hwf3 (by omega)
        constructor
        · refine ihp.trans ?_
          rw [List.reverse_cons, List.append_assoc]
          exact List.Perm.append_left _ (by simpa using hpopped.symm)
        · intro i hi
          rcases iht i hi with hmem | hb
          · rcases List.mem_cons.mp hmem with hm | hm
            · right
              subst hm
              exact hinfo_bound _ rfl rfl rfl rfl
            · exact Or.inl hm
          · exact Or.inr hb

theorem addToBucket_keys (a : String) (t : Track) :
    ∀ b : List (String × List Track),
    (addToBucket b a t).map Prod.fst =
      if a ∈ b.map Prod.fst then b.map Prod.fst else b.map Prod.fst ++ [a] := by
  intro b
  induction b with
  | nil => simp [addToBucket]
  | cons p rest ih =>
    obtain ⟨k, vs⟩ := p
    by_cases hk : k = a
    · subst hk
      simp [addToBucket]
    · simp only [addToBucket, if_neg hk, List.map_cons, ih]
      by_cases hmem : a ∈ rest.map Prod.fst
      · rw [if_pos hmem, if_pos (by simp [hmem])]
      · rw [if_neg hmem, if_neg ?_]
        · simp
        · simp only [List.map_cons, List.mem_cons]
          rintro (h | h)
          · exact hk h.symm
          · exact hmem h

theorem addToBucket_wf (a : String) (t : Track)
    (b : List (String × List Track)) (hwf : BucketsWf b) :
    BucketsWf (addToBucket b a t) := by
  unfold BucketsWf at hwf ⊢
  rw [addToBucket_keys]
  by_cases hmem : a ∈ b.map Prod.fst
  · rwa [if_pos hmem]
  · rw [if_neg hmem]
    rw [List.nodup_append]
    exact ⟨hwf, List.nodup_singleton _, by
      intro x hx hx'
      rw [List.mem_singleton.mp hx'] at hx
      exact hmem hx⟩

theorem addToBucket_allTracks (a : String) (t : Track) :
    ∀ b : List (String × List Track),
    (allTracks (addToBucket b a t)).Perm (allTracks b ++ [t]) := by
  intro b
  induction b with
  | nil => simp [addToBucket, allTracks]
  | cons p rest ih =>
    obtain ⟨k, vs⟩ := p
    by_cases hk : k = a
    · subst hk
      simp only [addToBucket, if_pos rfl, ite_true, allTracks, List.map_cons,
        List.flatten_cons]
      rw [List.append_assoc, List.append_assoc]
      exact List.Perm.append_left vs List.perm_append_comm
    · simp only [addToBucket, if_neg hk, allTracks, List.map_cons,
        List.flatten_cons]
      rw [List.append_assoc]
      exact List.Perm.append_left vs (by simpa [allTracks] using ih)

theorem mkBuckets_wf_allTracks (tracks : List Track) :
    BucketsWf (mkBuckets tracks) ∧ (allTracks (mkBuckets tracks)).Perm tracks := by
  suffices h : ∀ (ts : List Track) (b0 : List (String × List Track)),
      BucketsWf b0 →
      BucketsWf (ts.foldl (fun b t => addToBucket b (primary_artist t) t) b0) ∧
      (allTracks (ts.foldl (fun b t => addToBucket b (primary_artist t) t) b0)).Perm
        (allTracks b0 ++ ts) by
    have := h tracks [] (by exact List.nodup_nil)
    exact ⟨this.1, by simpa [allTracks] using this.2⟩
  intro ts
  induction ts with
  | nil =>
    intro b0 hwf
    exact ⟨hwf, by simp⟩
  | cons t rest ih =>
    intro b0 hwf
    simp only [List.foldl_cons]
    obtain ⟨h1, h2⟩ := ih (addToBucket b0 (primary_artist t) t)
      (addToBucket_wf _ _ _ hwf)
    refine ⟨h1, h2.trans ?_⟩
    have := addToBucket_allTracks (primary_artist t) t b0
    calc allTracks (addToBucket b0 (primary_artist t) t) ++ rest
        |>.Perm ((allTracks b0 ++ [t]) ++ rest) := this.append_right _
    _ = allTracks b0 ++ (t :: rest) := by simp

theorem shufBuckets_wf_allTracks (rng : Rng)
    (hshuf : ∀ l, (rng.shufTracks l).Perm l) (b : List (String × List Track))
    (hwf : BucketsWf b) :
    BucketsWf (b.map (fun p => (p.1, rng.shufTracks p.2))) ∧
    (allTracks (b.map (fun p => (p.1, rng.shufTracks p.2)))).Perm (allTracks b) := by
  constructor
  · unfold BucketsWf at hwf ⊢
    rw [List.map_map]
    exact hwf
  · induction b with
    | nil => simp [allTracks]
    | cons p rest ih =>
      have hwf' : BucketsWf rest := by
        unfold BucketsWf at hwf ⊢
        simp only [List.map_cons] at hwf
        exact (List.nodup_cons.mp hwf).2
      simp only [List.map_cons, allTracks, List.flatten_cons]
      exact List.Perm.append (hshuf p.2) (by simpa [allTracks] using ih hwf')

theorem initHeap_fold_spec (rng : Rng) :
    ∀ (bs : List (String × List Track)) (h0 : List HeapEntry) (c0 : Nat),
    ((bs.foldl
      (fun (pr : List HeapEntry × Nat) p =>
        if p.2.isEmpty then pr
        else (pr.1 ++ [(-(p.2.length : Int), rng.rand pr.2, p.1)], pr.2 + 1))
      (h0, c0)).1.map (fun e => e.2.2) =
        h0.map (fun e => e.2.2) ++
          (bs.filter (fun p => !p.2.isEmpty)).map Prod.fst) ∧
    (∀ e ∈ (bs.foldl
      (fun (pr : List HeapEntry × Nat) p =>
        if p.2.isEmpty then pr
        else (pr.1 ++ [(-(p.2.length : Int), rng.rand pr.2, p.1)], pr.2 + 1))
      (h0, c0)).1,
      e ∈ h0 ∨ ∃ p ∈ bs, p.2 ≠ [] ∧ e.1 = -((p.2.length : Int)) ∧ e.2.2 = p.1) := by
  intro bs
  induction bs with
  | nil =>
    intro h0 c0
    exact ⟨by simp, fun e he => Or.inl he⟩
  | cons p rest ih =>
    intro h0 c0
    simp only [List.foldl_cons]
    by_cases hp : p.2.isEmpty
    · rw [if_pos hp]
      obtain ⟨ih1, ih2⟩ := ih h0 c0
      constructor
      · rw [ih1]
        have : List.filter (fun p => !p.2.isEmpty) (p :: rest) =
            List.filter (fun p => !p.2.isEmpty) rest := by
          simp [List.filter, hp]
        rw [this]
      · intro e he
        rcases ih2 e he with h | ⟨q, hq, hrest⟩
        · exact Or.inl h
        · exact Or.inr ⟨q, List.mem_cons_of_mem _ hq, hrest⟩
    · rw [if_neg hp]
      obtain ⟨ih1, ih2⟩ :=
        ih (h0 ++ [(-(p.2.length : Int), rng.rand c0, p.1)]) (c0 + 1)
      constructor
      · rw [ih1]
        have : List.filter (fun p => !p.2.isEmpty) (p :: rest) =
            p :: List.filter (fun p => !p.2.isEmpty) rest := by
          simp [List.filter, hp]
        rw [this]
        simp
      · intro e he
        rcases ih2 e he with h | ⟨q, hq, hrest⟩
        · rcases List.mem_append.mp h with h | h
          · exact Or.inl h
          · rw [List.mem_singleton.mp h]
            refine Or.inr ⟨p, List.mem_cons_self _ _, ?_, rfl, rfl⟩
            intro hnil
            rw [hnil] at hp
            exact hp rfl
        · exact Or.inr ⟨q, List.mem_cons_of_mem _ hq, hrest⟩

theorem initHeap_wf (rng : Rng) (bs : List (String × List Track))
    (hwf : BucketsWf bs) : HeapWf bs (initHeap rng bs).1 := by
  obtain ⟨h1, h2⟩ := initHeap_fold_spec rng bs [] 0
  refine ⟨?_, ?_, ?_⟩
  · show ((initHeap rng bs).1.map (fun e => e.2.2)).Nodup
    unfold initHeap
    rw [h1]
    simp only [List.map_nil, List.nil_append]
    exact ((List.filter_sublist _).map Prod.fst).nodup hwf
  · intro e he
    rcases h2 e he with h | ⟨p, hp, hpne, hcnt, hart⟩
    · cases h
    · have hget : bucketGet bs e.2.2 = p.2 := by
        rw [hart]
        exact bucketGet_of_mem hwf (by simpa using hp)
      rw [hget]
      exact ⟨hcnt, hpne⟩
  · intro p hp hpne
    have hpf : p ∈ bs.filter (fun q => !q.2.isEmpty) := by
      rw [List.mem_filter]
      refine ⟨hp, ?_⟩
      simp only [Bool.not_eq_true']
      rcases hq : p.2 with _ | _
      · exact absurd hq hpne
      · rfl
    have : p.1 ∈ (initHeap rng bs).1.map (fun e => e.2.2) := by
      unfold initHeap
      rw [h1]
      simp only [List.map_nil, List.nil_append]
      exact List.mem_map.mpr ⟨p, hpf, rfl⟩
    obtain ⟨e, he, hea⟩ := List.mem_map.mp this
    exact ⟨e, he, hea⟩

/-- The fairness shuffle permutes its input (helper shared by several
theorems). -/
theorem shuffle_perm (rng : Rng) (tracks : List Track)
    (hshuf : ∀ l, (rng.shufTracks l).Perm l) :
    (shuffle_without_adjacent_artist_runs rng tracks).Perm tracks := by
  unfold shuffle_without_adjacent_artist_runs shuffleWithTrace
  by_cases hlen : tracks.length ≤ 1
  · rw [if_pos hlen]
  · rw [if_neg hlen]
    obtain ⟨hmkwf, hmkperm⟩ := mkBuckets_wf_allTracks tracks
    obtain ⟨hswf, hsperm⟩ := shufBuckets_wf_allTracks rng hshuf _ hmkwf
    have hballperm := hsperm.trans hmkperm
    have hwfh := initHeap_wf rng _ hswf
    have hfuel : (allTracks ((mkBuckets tracks).map
        (fun p => (p.1, rng.shufTracks p.2)))).length ≤ tracks.length := by
      rw [hballperm.length_eq]
    obtain ⟨hp, -⟩ := shuffleLoop_spec rng tracks.length _ _ none
      (initHeap rng ((mkBuckets tracks).map (fun p => (p.1, rng.shufTracks p.2)))).2
      [] [] hswf hwfh hfuel
    exact hp.trans (by simpa using hballperm)

/-- C5: for every input and every random source whose `shuffle` oracle is a
permutation (as `random.shuffle` is), the fairness-shuffle output is a
permutation of the input; an empty or single-track input is returned
unchanged. -/
theorem C5_shuffle_perm (rng : Rng) (tracks : List Track)
    (hshuf : ∀ l, (rng.shufTracks l).Perm l) :
    (shuffle_without_adjacent_artist_runs rng tracks).Perm tracks ∧
    (tracks.length ≤ 1 → shuffle_without_adjacent_artist_runs rng tracks = tracks) := by
  refine ⟨shuffle_perm rng tracks hshuf, ?_⟩
  intro hlen
  unfold shuffle_without_adjacent_artist_runs shuffleWithTrace
  rw [if_pos hlen]

/-- Witness for C5 at a concrete input and oracle. -/
theorem C5_shuffle_perm_witness :
    (shuffle_without_adjacent_artist_runs rng0 [tA1, tA2, tA3, tB1]).Perm
      [tA1, tA2, tA3, tB1] ∧
    shuffle_without_adjacent_artist_runs rng0 [tA1] = [tA1] := by
  have h1 := C5_shuffle_perm rng0 [tA1, tA2, tA3, tB1] (fun l => List.Perm.refl l)
  have h2 := C5_shuffle_perm rng0 [tA1] (fun l => List.Perm.refl l)
  exact ⟨h1.1, h2.2 (by decide)⟩

/-- C3 amended: whenever two consecutive output tracks share a primary artist
("a repeat"), either every other bucket was already exhausted, or — and this
is where the code falls short of the claim — the repeated artist's bucket
held at least as many remaining tracks as every other non-empty bucket at
that moment (the reinsert-and-pop-next step only avoids the repeat when some
other bucket attains the heap minimum). -/
theorem C3_amended_repeat_bound (rng : Rng) (tracks : List Track)
    (hshuf : ∀ l, (rng.shufTracks l).Perm l) :
    ∀ info ∈ (shuffleWithTrace rng tracks).2,
      info.prev = some info.artist →
      ∀ q ∈ info.others, q.2 ≤ info.remaining := by
  intro info hinfo
  unfold shuffleWithTrace at hinfo
  by_cases hlen : tracks.length ≤ 1
  · rw [if_pos hlen] at hinfo
    cases hinfo
  · rw [if_neg hlen] at hinfo
    obtain ⟨hmkwf, hmkperm⟩ := mkBuckets_wf_allTracks tracks
    obtain ⟨hswf, hsperm⟩ := shufBuckets_wf_allTracks rng hshuf _ hmkwf
    have hballperm := hsperm.trans hmkperm
    have hwfh := initHeap_wf rng _ hswf
    have hfuel : (allTracks ((mkBuckets tracks).map
        (fun p => (p.1, rng.shufTracks p.2)))).length ≤ tracks.length := by
      rw [hballperm.length_eq]
    obtain ⟨-, ht⟩ := shuffleLoop_spec rng tracks.length _ _ none
      (initHeap rng ((mkBuckets tracks).map (fun p => (p.1, rng.shufTracks p.2)))).2
      [] [] hswf hwfh hfuel
    rcases ht info hinfo with hmem | hb
    · cases hmem
    · exact hb

/-- Witness for the amended C3: at the concrete counterexample input, the
second emission is a repeat of artist A with B's bucket non-empty, and A's
remaining size (2) indeed bounds B's (1). -/
theorem C3_amended_repeat_bound_witness : (1 : Nat) ≤ 2 :=
  C3_amended_repeat_bound rng0 [tA1, tA2, tA3, tB1]
    (fun l => List.Perm.refl l)
    ⟨"A", some "A", 2, [("B", 1)]⟩ (by decide) rfl ("B", 1) (by decide)

/-! ### `_resolve_artist_query` and artist collection

The Spotify client collaborator is a record of response functions; an
`Except ClientErr` result models a call that raises `SpotifyClientError`.
The artists file is read through the collaborator record as well
(`read_file path = none` models a missing file). -/

/-- Python `s.startswith(pre)`. -/
def pyStartsWith (pre s : String) : Bool := pre.data.isPrefixOf s.data

/-- `s.split(sep)[-1]` on character lists. -/
def afterLastSep (sep : Char) (l : List Char) : List Char :=
  (l.reverse.takeWhile (fun ch => !(ch = sep))).reverse

/-- `s.rstrip("/")` on character lists. -/
def rstripSlash (l : List Char) : List Char :=
  (l.reverse.dropWhile (fun ch => ch = '/')).reverse

/-- The injected collaborator (`services/spotify_client.py`). -/
structure SpotifyClient where
  current_user : Except ClientErr (Option String)
  search_artists : String → Int → Except ClientErr (List Artist)
  artist : String → Except ClientErr Artist
  top_tracks_for_artist : String → Int → Except ClientErr (List Track)
  top_artists : Int → Except ClientErr (List Artist)
  followed_artists : Int → Except ClientErr (List Artist)
  find_playlist_by_name : String → String → Except ClientErr (Option PlaylistSummary)
  create_playlist : String → String → String → Except ClientErr String
  get_playlist_track_uris : String → Except ClientErr (List String)
  add_tracks_to_playlist : String → List String → Except ClientErr Unit
  replace_playlist_tracks : String → List String → Except ClientErr Unit
  read_file : String → Option (List String)

/-- Errors a build can surface: a `PlaylistBuilderError` with its message, or
a propagated `SpotifyClientError`. -/
inductive BuildErr where
  | builder (msg : String)
  | client
deriving DecidableEq, Repr

def msgNoUser : String := "Spotify profile did not include a user identifier."

def msgNoArtists : String := "No artists were resolved from the configured sources."

def msgNoTracks : String := "No tracks could be generated for the playlist."

def msgFileMissing : String := "Artists file does not exist."

/-- `ratio` of `SequenceMatcher(None, cand, query)` as an exact fraction. -/
def ratioNumDen (cand query : String) : Nat × Nat :=
  let T := cand.data.length + query.data.length
  if T = 0 then (1, 1) else (2 * smMatches cand.data query.data, T)

/-- `difflib.get_close_matches(query, cands, n=1, cutoff=0.6)`, as the single
best candidate: keep candidates with ratio ≥ 0.6 (`5·num ≥ 3·den` exactly);
the maximum is by ratio, ties by the larger candidate string (Python's
`nlargest` on `(score, string)` pairs). -/
def get_close_matches1 (query : String) (cands : List String) : Option String :=
  cands.foldl
    (fun best x =>
      let rx := ratioNumDen x query
      if ¬ (3 * rx.2 ≤ 5 * rx.1) then best
      else
        match best with
        | none => some x
        | some b =>
          let rb := ratioNumDen b query
          if rb.1 * rx.2 < rx.1 * rb.2 then some x
          else if rx.1 * rb.2 < rb.1 * rx.2 then some b
          else if strLt b x then some x else some b)
    none

/-- `PlaylistBuilder._resolve_artist_query`: direct-ID forms bypass search;
otherwise search and pick by exact case-fold, accent-stripped, fuzzy, or
first-result precedence.  `ok none` is "not found"; a raised
`SpotifyClientError` propagates. -/
def resolve_artist_query (c : SpotifyClient) (query : String) :
    Except ClientErr (Option Artist) :=
  let normalized := pyStrip query
  if normalized = "" then .ok none
  else if pyStartsWith "spotify:artist:" normalized then
    match c.artist ⟨afterLastSep ':' normalized.data⟩ with
    | .error e => .error e
    | .ok a => .ok (some a)
  else if pyInStr "open.spotify.com/artist" normalized then
    match c.artist ⟨(afterLastSep '/' (rstripSlash normalized.data)).takeWhile
        (fun ch => !(ch = '?'))⟩ with
    | .error e => .error e
    | .ok a => .ok (some a)
  else
    match c.search_artists normalized 10 with
    | .error e => .error e
    | .ok found =>
      if found.isEmpty then .ok none
      else
        let target_casefold := pyCasefold normalized
        match found.find? (fun m => decide (pyCasefold m.name = target_casefold)) with
        | some m => .ok (some m)
        | none =>
          let target_simple := strip_accents target_casefold
          match found.find?
              (fun m => decide (strip_accents (pyCasefold m.name) = target_simple)) with
          | some m => .ok (some m)
          | none =>
            match get_close_matches1 normalized (found.map Artist.name) with
            | some best =>
              match found.find? (fun m => decide (m.name = best)) with
              | some m => .ok (some m)
              | none => .ok (some (found.headD ⟨"", ""⟩))
            | none => .ok (some (found.headD ⟨"", ""⟩))

/-- The shared per-query loop of `_load_artists_from_manual` and
`_load_artists_from_file`: a query that resolves to nothing contributes no
artist; a raised client error propagates. -/
def resolveQueries (c : SpotifyClient) : List String → Except ClientErr (List Artist)
  | [] => .ok []
  | q :: qs =>
    match resolve_artist_query c q with
    | .error e => .error e
    | .ok none => resolveQueries c qs
    | .ok (some a) =>
      match resolveQueries c qs with
      | .error e => .error e
      | .ok l => .ok (a :: l)

/-- `PlaylistBuilder._load_artists_from_manual`. -/
def load_artists_from_manual (c : SpotifyClient) (opts : PlaylistOptions) :
    Except ClientErr (List Artist) :=
  resolveQueries c
    ((opts.manual_artist_queries.map pyStrip).filter (fun q => !(q = "")))

/-- `PlaylistBuilder._load_artists_from_file`; `read_file` models the
filesystem collaborator, `none` meaning the file does not exist. -/
def load_artists_from_file (c : SpotifyClient) (opts : PlaylistOptions) :
    Except BuildErr (List Artist) :=
  match opts.artists_file with
  | none => .ok []
  | some path =>
    if path = "" then .ok []
    else
      match c.read_file path with
      | none => .error (.builder msgFileMissing)
      | some lines =>
        match resolveQueries c
            ((lines.map pyStrip).filter
              (fun l => !(l = "") && !(pyStartsWith "#" l))) with
        | .error _ => .error .client
        | .ok l => .ok l

/-- Dedupe/cap loop at the end of `_collect_artists`. -/
def dedupeArtistsGo (maxA : Int) : List String → List Artist → List Artist →
    List Artist
  | _, acc, [] => acc.reverse
  | seen, acc, a :: rest =>
    if seen.contains a.id then dedupeArtistsGo maxA seen acc rest
    else if a.name = "" then dedupeArtistsGo maxA seen acc rest
    else if 0 < maxA ∧ maxA ≤ ((a :: acc).length : Int) then (a :: acc).reverse
    else dedupeArtistsGo maxA (a.id :: seen) (a :: acc) rest

/-- `PlaylistBuilder._collect_artists`: manual queries, file queries, then
library/followed artists (each only when requested or when nothing was found
yet), deduped by id, empty names dropped, capped at `max_artists`. -/
def collect_artists (c : SpotifyClient) (opts : PlaylistOptions) :
    Except BuildErr (List Artist) :=
  match load_artists_from_manual c opts with
  | .error _ => .error .client
  | .ok manual =>
    match load_artists_from_file c opts with
    | .error e => .error e
    | .ok fileA =>
      let cand1 := manual ++ fileA
      match (if opts.library_artists || cand1.isEmpty then
          c.top_artists (max opts.max_artists 20) else .ok []) with
      | .error _ => .error .client
      | .ok lib =>
        let cand2 := cand1 ++ lib
        match (if opts.followed_artists || cand2.isEmpty then
            c.followed_artists (max opts.max_artists 20) else .ok []) with
        | .error _ => .error .client
        | .ok fol =>
          .ok (dedupeArtistsGo opts.max_artists [] [] (cand2 ++ fol))

/-! ### `PlaylistBuilder.build` -/

/-- Playlist statistics (`PlaylistStats`); counters are Python ints. -/
structure PlaylistStats where
  playlist_name : String
  artists_retrieved : Int
  top_tracks_retrieved : Int
  variants_deduped : Int
  total_prepared : Int
  total_uploaded : Int
deriving Repr, DecidableEq

/-- Summarized playlist creation result (`PlaylistResult`). -/
structure PlaylistResult where
  playlist_id : String
  playlist_name : String
  prepared_track_uris : List String
  added_track_uris : List String
  display_tracks : List String
  dry_run : Bool
  reused_existing : Bool
  stats : PlaylistStats
deriving Repr, DecidableEq

/-- A collaborator mutation call performed during a build. -/
inductive MutEvent where
  | create (user_id name desc : String)
  | add (playlist_id : String) (uris : List String)
  | replace (playlist_id : String) (uris : List String)
deriving DecidableEq, Repr

/-- `PlaylistBuilder._build_playlist_name`; `today` stands for
`datetime.now().strftime("%Y-%m-%d")`. -/
def build_playlist_name (opts : PlaylistOptions) (today : String) : String :=
  let base := if pyStrip opts.playlist_name = "" then "Untitled Playlist"
    else pyStrip opts.playlist_name
  if !opts.date_stamp then base else base ++ " " ++ today

/-- `PlaylistBuilder._build_description` (a constant). -/
def build_description : String :=
  "Generated by Spotify Playlist Builder (© 2025 EugeneR)"

/-- `PlaylistBuilder._to_track_uri`. -/
def to_track_uri (track : Track) : String := "spotify:track:" ++ track.id

/-- `", ".join(l)`. -/
def joinCommaSpace : List String → String
  | [] => ""
  | [x] => x
  | x :: xs => x ++ ", " ++ joinCommaSpace xs

/-- `PlaylistBuilder._format_track`. -/
def format_track (track : Track) : String :=
  let artists := joinCommaSpace track.artists
  if !(artists = "") then artists ++ " – " ++ track.name else track.name

/-- The tail of `PlaylistBuilder.build` from the existing-playlist lookup
onwards: dry-run early return, otherwise the create / truncate-replace /
diff-add / shuffle-replace mutation paths.  Factored out so each path can be
analysed in isolation; `build` calls it exactly once. -/
def buildFinish (c : SpotifyClient) (rng : Rng) (opts : PlaylistOptions)
    (playlist_name user_id : String) (prepared_uris display_tracks : List String)
    (stats0 : PlaylistStats) : Except BuildErr (PlaylistResult × List MutEvent) :=
  let existingE : Except ClientErr (Option PlaylistSummary) :=
    if opts.reuse_existing then
      match opts.target_playlist_id with
      | some t =>
        if !(t = "") then .ok (some ⟨t, playlist_name, user_id, 0⟩)
        else c.find_playlist_by_name playlist_name user_id
      | none => c.find_playlist_by_name playlist_name user_id
    else .ok none
  match existingE with
  | .error _ => .error .client
  | .ok existing =>
    if opts.dry_run then
      .ok ({ playlist_id := (existing.map PlaylistSummary.id).getD ""
             playlist_name := playlist_name
             prepared_track_uris := prepared_uris
             added_track_uris := []
             display_tracks := display_tracks
             dry_run := true
             reused_existing := existing.isSome
             stats := stats0 }, [])
    else
      match existing with
      | none =>
        match c.create_playlist user_id playlist_name build_description with
        | .error _ => .error .client
        | .ok playlist_id =>
          let doAdd : Except ClientErr Unit :=
            if !prepared_uris.isEmpty then
              c.add_tracks_to_playlist playlist_id prepared_uris
            else .ok ()
          match doAdd with
          | .error _ => .error .client
          | .ok _ =>
            let added := if !prepared_uris.isEmpty then prepared_uris else []
            .ok ({ playlist_id := playlist_id
                   playlist_name := playlist_name
                   prepared_track_uris := prepared_uris
                   added_track_uris := added
                   display_tracks := display_tracks
                   dry_run := false
                   reused_existing := false
                   stats := { stats0 with total_uploaded := (added.length : Int) } },
              .create user_id playlist_name build_description ::
                (if !prepared_uris.isEmpty then
                  [.add playlist_id prepared_uris] else []))
      | some ep =>
        match c.get_playlist_track_uris ep.id with
        | .error _ => .error .client
        | .ok existing_uris =>
          if opts.truncate then
            match c.replace_playlist_tracks ep.id prepared_uris with
            | .error _ => .error .client
            | .ok _ =>
              .ok ({ playlist_id := ep.id
                     playlist_name := playlist_name
                     prepared_track_uris := prepared_uris
                     added_track_uris := prepared_uris
                     display_tracks := display_tracks
                     dry_run := false
                     reused_existing := true
                     stats := { stats0 with
                       total_uploaded := (prepared_uris.length : Int) } },
                [.replace ep.id prepared_uris])
          else
            let added := prepared_uris.filter
              (fun u => !(existing_uris.contains u))
            if opts.shuffle then
              let combined := prepared_uris ++
                existing_uris.filter (fun u => !(prepared_uris.contains u))
              let doRep : Except ClientErr (List MutEvent) :=
                if !combined.isEmpty then
                  match c.replace_playlist_tracks ep.id
                      (rng.shufUris combined) with
                  | .error e => .error e
                  | .ok _ => .ok [.replace ep.id (rng.shufUris combined)]
                else .ok []
              match doRep with
              | .error _ => .error .client
              | .ok log =>
                .ok ({ playlist_id := ep.id
                       playlist_name := playlist_name
                       prepared_track_uris := prepared_uris
                       added_track_uris := added
                       display_tracks := display_tracks
                       dry_run := false
                       reused_existing := true
                       stats := { stats0 with
                         total_uploaded := (added.length : Int) } }, log)
            else
              let doAdd : Except ClientErr (List MutEvent) :=
                if !added.isEmpty then
                  match c.add_tracks_to_playlist ep.id added with
                  | .error e => .error e
                  | .ok _ => .ok [.add ep.id added]
                else .ok []
              match doAdd with
              | .error _ => .error .client
              | .ok log =>
                .ok ({ playlist_id := ep.id
                       playlist_name := playlist_name
                       prepared_track_uris := prepared_uris
                       added_track_uris := added
                       display_tracks := display_tracks
                       dry_run := false
                       reused_existing := true
                       stats := { stats0 with
                         total_uploaded := (added.length : Int) } }, log)

/-- `PlaylistBuilder.build`: the whole orchestration, returning the result
together with the log of mutation calls made on the collaborator (reads are
not logged; the claims only constrain mutations). -/
def build (c : SpotifyClient) (rng : Rng) (opts : PlaylistOptions)
    (today : String) : Except BuildErr (PlaylistResult × List MutEvent) :=
  let playlist_name := build_playlist_name opts today
  match c.current_user with
  | .error _ => .error .client
  | .ok uid =>
    if (uid.getD "") = "" then .error (.builder msgNoUser)
    else
      let user_id := uid.getD ""
      match collect_artists c opts with
      | .error e => .error e
      | .ok artists =>
        if artists.isEmpty then .error (.builder msgNoArtists)
        else
          let col := collect_tracks c.top_tracks_for_artist artists opts
          if col.1.isEmpty && !opts.truncate then .error (.builder msgNoTracks)
          else
            let tracks := if opts.shuffle && !col.1.isEmpty then
              shuffle_without_adjacent_artist_runs rng col.1 else col.1
            let prepared_uris := trim_tracks (tracks.map to_track_uri) opts.max_tracks
            let prepared_tracks := tracks.take prepared_uris.length
            let display_tracks := prepared_tracks.map format_track
            buildFinish c rng opts playlist_name user_id prepared_uris
              display_tracks
              { playlist_name := playlist_name
                artists_retrieved := (artists.length : Int)
                top_tracks_retrieved := col.2.2
                variants_deduped := (col.2.1.length : Int)
                total_prepared := (prepared_uris.length : Int)
                total_uploaded := 0 }
def cT : SpotifyClient :=
  { current_user := .ok (some "user1")
    search_artists := fun q _ => if q = "Metallica" then .ok [⟨"m1", "Metallica"⟩] else .ok []
    artist := fun i => if i = "bad" then .error () else .ok ⟨i, "Artist " ++ i⟩
    top_tracks_for_artist := fun aid _ =>
      if aid = "m1" then .ok [⟨"t1", "One", ["Metallica"]⟩, ⟨"t2", "Two", ["Metallica"]⟩]
      else .error ()
    top_artists := fun _ => .ok []
    followed_artists := fun _ => .ok []
    find_playlist_by_name := fun _ _ => .ok none
    create_playlist := fun _ _ _ => .ok "pl1"
    get_playlist_track_uris := fun _ => .ok ["spotify:track:t1", "spotify:track:x"]
    add_tracks_to_playlist := fun _ _ => .ok ()
    replace_playlist_tracks := fun _ _ => .ok ()
    read_file := fun _ => none }

def oT : PlaylistOptions :=
  { playlist_name := "P", manual_artist_queries := ["Metallica"],
    followed_artists := false, dry_run := true }


def oT2 : PlaylistOptions := { oT with dry_run := false }

def oT3 : PlaylistOptions := { oT with dry_run := false, reuse_existing := true, target_playlist_id := some "pl9" }

def oT4 : PlaylistOptions := { oT3 with manual_artist_queries := ["spotify:artist:bad"] }

def oT5 : PlaylistOptions := { oT with manual_artist_queries := ["Nobody"], followed_artists := false }

/-! ### C1: partial-failure tolerance of artist resolution and track fetch -/

/-- Options for the C1 counterexample: two manual queries, the first a direct
artist-ID form whose fetch raises a client error, the second resolvable. -/
def optsC1 : PlaylistOptions :=
  { playlist_name := "P"
    manual_artist_queries := ["spotify:artist:bad", "Metallica"]
    followed_artists := false
    dry_run := true }

/-- C1 counterexample: a client error raised while resolving one artist query
(here the direct-ID fetch for `spotify:artist:bad`) is *not* recovered: the
whole build aborts with the propagated client error, even though the
remaining query alone would have produced a playlist.  (`_resolve_artist_query`
has no `except SpotifyClientError` handler, nor do its callers.) -/
theorem C1_counterexample :
    build cT rng0 optsC1 "d" = .error .client ∧
    (build cT rng0 { optsC1 with manual_artist_queries := ["Metallica"] } "d").map
      (fun r => r.1.prepared_track_uris) =
        .ok ["spotify:track:t1", "spotify:track:t2"] :=
  ⟨rfl, rfl⟩

theorem resolveQueries_skip (c : SpotifyClient) (q : String)
    (hq : resolve_artist_query c q = .ok none) :
    ∀ qs1 qs2 : List String,
    resolveQueries c (qs1 ++ q :: qs2) = resolveQueries c (qs1 ++ qs2) := by
  intro qs1
  induction qs1 with
  | nil =>
    intro qs2
    simp only [List.nil_append, resolveQueries, hq]
  | cons q1 rest ih =>
    intro qs2
    simp only [List.cons_append, resolveQueries]
    cases resolve_artist_query c q1 with
    | error e => rfl
    | ok o =>
      cases o with
      | none => exact ih qs2
      | some a =>
        dsimp only
        rw [show rest.append (q :: qs2) = rest ++ q :: qs2 from rfl,
          show rest.append qs2 = rest ++ qs2 from rfl, ih qs2]

theorem collectOuter_skip
    (fetch : String → Int → Except ClientErr (List Track))
    (opts : PlaylistOptions) (pal : Int) (a : Artist)
    (hfail : ∀ lim, ∃ e, fetch a.id lim = .error e) :
    ∀ (as1 as2 : List Artist) (st : CollectSt) (r : Int),
    collectOuter fetch opts pal st r (as1 ++ a :: as2) =
      collectOuter fetch opts pal st r (as1 ++ as2) := by
  intro as1
  induction as1 with
  | nil =>
    intro as2 st r
    simp only [List.nil_append]
    conv_lhs => rw [collectOuter]
    obtain ⟨e, he⟩ := hfail
      (max (if opts.dedupe_variants then max (pal + 5) (pal * 2) else pal) pal)
    rw [he]
  | cons a1 rest ih =>
    intro as2 st r
    simp only [List.cons_append]
    rw [collectOuter, collectOuter]
    cases fetch a1.id
        (max (if opts.dedupe_variants then max (pal + 5) (pal * 2) else pal) pal) with
    | error e => exact ih as2 st r
    | ok tt =>
      dsimp only
      by_cases h3 : 0 < opts.max_tracks ∧
          opts.max_tracks ≤ ((collectInner opts pal st 0 tt).selected.length : Int)
      · rw [if_pos h3, if_pos h3]
      · rw [if_neg h3, if_neg h3]
        exact ih as2 _ _

/-- C1 amended: only the *empty-search-result* form of resolution failure is
recovered locally (the query contributes zero artists and the remaining
queries proceed), and a per-artist top-tracks client error is recovered
locally (that artist contributes zero tracks and collection proceeds); a
client error raised during artist search or direct-ID fetch, by contrast,
propagates and aborts the build (see the counterexample). -/
theorem C1_amended_partial_failure (c : SpotifyClient)
    (fetch : String → Int → Except ClientErr (List Track))
    (q : String) (a : Artist) (opts : PlaylistOptions)
    (hq : resolve_artist_query c q = .ok none)
    (hfail : ∀ lim, ∃ e, fetch a.id lim = .error e) :
    (∀ qs1 qs2, resolveQueries c (qs1 ++ q :: qs2) = resolveQueries c (qs1 ++ qs2)) ∧
    (∀ as1 as2, collect_tracks fetch (as1 ++ a :: as2) opts =
      collect_tracks fetch (as1 ++ as2) opts) := by
  constructor
  · exact resolveQueries_skip c q hq
  · intro as1 as2
    unfold collect_tracks
    by_cases hp : max 0 opts.limit_per_artist = 0
    · rw [if_pos hp, if_pos hp]
    · rw [if_neg hp, if_neg hp, collectOuter_skip fetch opts _ a hfail]

/-- Witness for the amended C1: with the concrete client, the unresolvable
query `"Nobody"` contributes nothing, and an artist whose top-tracks fetch
fails contributes zero tracks. -/
theorem C1_amended_partial_failure_witness :
    resolveQueries cT ["Nobody", "Metallica"] = resolveQueries cT ["Metallica"] ∧
    collect_tracks cT.top_tracks_for_artist [⟨"zz", "Z"⟩, ⟨"m1", "Metallica"⟩]
        { playlist_name := "P" } =
      collect_tracks cT.top_tracks_for_artist [⟨"m1", "Metallica"⟩]
        { playlist_name := "P" } := by
  have h := C1_amended_partial_failure cT cT.top_tracks_for_artist "Nobody"
    ⟨"zz", "Z"⟩ { playlist_name := "P" } rfl (fun lim => ⟨(), rfl⟩)
  exact ⟨h.1 [] ["Metallica"], h.2 [] [⟨"m1", "Metallica"⟩]⟩


/-! ### Stage lemmas for `buildFinish` -/

/-- On every successful path of `buildFinish` (dry-run, create-new,
reuse-with-truncate, reuse-with-shuffle-replace, reuse-with-diff-add), the
result carries the prepared list it was given, leaves `total_prepared`
untouched, and sets `total_uploaded` to the length of the added list; with
`dry_run` the mutation log is empty and nothing is added. -/
theorem buildFinish_ok_spec (c : SpotifyClient) (rng : Rng)
    (opts : PlaylistOptions) (pn uid : String) (pu dt : List String)
    (st : PlaylistStats) (r : PlaylistResult) (log : List MutEvent)
    (hst : st.total_uploaded = 0)
    (hok : buildFinish c rng opts pn uid pu dt st = .ok (r, log)) :
    r.prepared_track_uris = pu ∧
    r.stats.total_prepared = st.total_prepared ∧
    r.stats.total_uploaded = (r.added_track_uris.length : Int) ∧
    (opts.dry_run = true → log = [] ∧ r.added_track_uris = [] ∧ r.dry_run = true) := by
  unfold buildFinish at hok
  dsimp only at hok
  repeat'
    first
      | cases hok
      | split at hok
  all_goals
    first
      | exact ⟨rfl, rfl, by simp [hst], fun _ => ⟨rfl, rfl, rfl⟩⟩
      | exact ⟨rfl, rfl, rfl, fun hd => absurd hd (by assumption)⟩

/-- `buildFinish` can only fail with a propagated client error, never with a
`PlaylistBuilderError`. -/
theorem buildFinish_no_builder (c : SpotifyClient) (rng : Rng)
    (opts : PlaylistOptions) (pn uid : String) (pu dt : List String)
    (st : PlaylistStats) (m : String) :
    buildFinish c rng opts pn uid pu dt st ≠ .error (.builder m) := by
  intro h
  unfold buildFinish at h
  dsimp only at h
  repeat'
    first
      | simp at h
      | split at h

/-! ### C8: dry-run performs no mutation -/

/-- C8: with `dry_run = true`, a successful build performs no collaborator
mutation call (empty mutation log: no create, no add-tracks, no
replace-tracks), returns `added_track_uris = []`, and reports
`dry_run = true`. -/
theorem C8_dry_run_no_mutation (c : SpotifyClient) (rng : Rng)
    (opts : PlaylistOptions) (today : String) (r : PlaylistResult)
    (log : List MutEvent) (hdry : opts.dry_run = true)
    (hok : build c rng opts today = .ok (r, log)) :
    log = [] ∧ r.added_track_uris = [] ∧ r.dry_run = true := by
  unfold build at hok
  dsimp only at hok
  repeat'
    first
      | cases hok
      | split at hok
  all_goals exact (buildFinish_ok_spec _ _ _ _ _ _ _ _ _ _ rfl hok).2.2.2 hdry

/-! ### C10: statistics consistent with the returned lists -/

/-- C10: in every successful build result, `stats.total_uploaded` equals the
length of `added_track_uris` and `stats.total_prepared` equals the length of
`prepared_track_uris`, on every path (dry-run, create-new,
reuse-with-truncate, reuse-without-truncate, with or without shuffle). -/
theorem C10_stats_consistent (c : SpotifyClient) (rng : Rng)
    (opts : PlaylistOptions) (today : String) (r : PlaylistResult)
    (log : List MutEvent)
    (hok : build c rng opts today = .ok (r, log)) :
    r.stats.total_uploaded = (r.added_track_uris.length : Int) ∧
    r.stats.total_prepared = (r.prepared_track_uris.length : Int) := by
  unfold build at hok
  dsimp only at hok
  repeat'
    first
      | cases hok
      | split at hok
  all_goals
    obtain ⟨h1, h2, h3, -⟩ := buildFinish_ok_spec _ _ _ _ _ _ _ _ _ _ rfl hok
    refine ⟨h3, ?_⟩
    rw [h2, h1]

/-! ### C7: the no-tracks failure condition -/

/-- C7: when the user identity is available and at least one artist resolves,
the build fails with the no-tracks builder error exactly when the Track
Collector's selected list is empty and truncate mode is not requested; with
truncate requested an empty collection does not cause this failure. -/
theorem C7_no_tracks_error (c : SpotifyClient) (rng : Rng)
    (opts : PlaylistOptions) (today : String) (u : String)
    (as : List Artist)
    (hu : c.current_user = .ok (some u)) (hune : u ≠ "")
    (has : collect_artists c opts = .ok as) (hasne : as ≠ []) :
    build c rng opts today = .error (.builder msgNoTracks) ↔
      ((collect_tracks c.top_tracks_for_artist as opts).1 = [] ∧
        opts.truncate = false) := by
  unfold build
  rw [hu]
  dsimp only
  rw [if_neg (by simpa using hune), has]
  dsimp only
  rw [if_neg (by simpa using hasne)]
  by_cases hcond : ((collect_tracks c.top_tracks_for_artist as opts).1.isEmpty &&
      !opts.truncate) = true
  · rw [if_pos hcond]
    simp only [Bool.and_eq_true, Bool.not_eq_true', List.isEmpty_iff] at hcond
    exact ⟨fun _ => hcond, fun _ => rfl⟩
  · rw [if_neg hcond]
    constructor
    · intro h
      exact absurd h (buildFinish_no_builder _ _ _ _ _ _ _ _ _)
    · intro hrhs
      exfalso
      apply hcond
      simp only [Bool.and_eq_true, Bool.not_eq_true', List.isEmpty_iff]
      exact hrhs

/-- The concrete result of the dry-run build of `oT` against `cT`. -/
def rDry : PlaylistResult :=
  { playlist_id := ""
    playlist_name := "P"
    prepared_track_uris := ["spotify:track:t1", "spotify:track:t2"]
    added_track_uris := []
    display_tracks := ["Metallica – One", "Metallica – Two"]
    dry_run := true
    reused_existing := false
    stats := { playlist_name := "P"
               artists_retrieved := 1
               top_tracks_retrieved := 2
               variants_deduped := 0
               total_prepared := 2
               total_uploaded := 0 } }

/-- Witness for C8 at the concrete dry-run build. -/
theorem C8_dry_run_no_mutation_witness :
    ([] : List MutEvent) = [] ∧ rDry.added_track_uris = [] ∧ rDry.dry_run = true :=
  C8_dry_run_no_mutation cT rng0 oT "d" rDry [] rfl rfl

/-- Witness for C10 at the concrete dry-run build. -/
theorem C10_stats_consistent_witness :
    rDry.stats.total_uploaded = (rDry.added_track_uris.length : Int) ∧
    rDry.stats.total_prepared = (rDry.prepared_track_uris.length : Int) :=
  C10_stats_consistent cT rng0 oT "d" rDry [] rfl

/-- A client identical to `cT` except that every top-tracks fetch fails, so
the collector selects nothing. -/
def cTempty : SpotifyClient :=
  { cT with top_tracks_for_artist := fun _ _ => .error () }

/-- Witness for C7: with an empty collection and `truncate = false` the build
fails with the no-tracks error (forward use of the equivalence), and with
`truncate = true` it does not (backward use). -/
theorem C7_no_tracks_error_witness :
    build cTempty rng0 oT "d" = .error (.builder msgNoTracks) ∧
    build cTempty rng0 { oT with truncate := true } "d" ≠
      .error (.builder msgNoTracks) := by
  constructor
  · exact (C7_no_tracks_error cTempty rng0 oT "d" "user1"
      [⟨"m1", "Metallica"⟩] rfl (by decide) rfl (by decide)).mpr ⟨rfl, rfl⟩
  · intro h
    have := (C7_no_tracks_error cTempty rng0 { oT with truncate := true } "d"
      "user1" [⟨"m1", "Metallica"⟩] rfl (by decide) rfl (by decide)).mp h
    exact absurd this.2 (by decide)

/-- `trim_tracks` keeps a sublist of its input. -/
theorem trim_tracks_sublist (l : List String) (m : Int) :
    (trim_tracks l m).Sublist l := by
  unfold trim_tracks
  by_cases hm : m ≤ 0
  · rw [if_pos hm]
  · rw [if_neg hm]
    have h := trimAux_eq_take m [] l (by simp; omega)
    simp only [List.reverse_nil, List.nil_append] at h
    rw [h]
    exact List.take_sublist _ _

theorem uri_map_nodup {ts : List Track}
    (h : (ts.map Track.id).Nodup) : (ts.map to_track_uri).Nodup := by
  have heq : ts.map to_track_uri =
      (ts.map Track.id).map (fun s => "spotify:track:" ++ s) := by
    rw [List.map_map]
    rfl
  rw [heq]
  apply h.map
  intro x y hxy
  have hd := congrArg String.data hxy
  have hd' : "spotify:track:".data ++ x.data = "spotify:track:".data ++ y.data := hd
  have := List.append_cancel_left hd'
  cases x; cases y
  exact congrArg String.mk this

/-- C4: no two tracks produced by the Track Collector share an id and every
id is non-empty; consequently the prepared list of any successful build
(derived from the selected list by optional shuffling, URI conversion and
trimming) contains no duplicate entries either. -/
theorem C4_track_ids :
    (∀ (fetch : String → Int → Except ClientErr (List Track))
      (artists : List Artist) (opts : PlaylistOptions),
      ((collect_tracks fetch artists opts).1.map Track.id).Nodup ∧
      ∀ t ∈ (collect_tracks fetch artists opts).1, t.id ≠ "") ∧
    (∀ (c : SpotifyClient) (rng : Rng) (opts : PlaylistOptions) (today : String)
      (r : PlaylistResult) (log : List MutEvent),
      (∀ l, (rng.shufTracks l).Perm l) →
      build c rng opts today = .ok (r, log) →
      r.prepared_track_uris.Nodup) := by
  refine ⟨collect_tracks_ids, ?_⟩
  intro c rng opts today r log hshuf hok
  unfold build at hok
  dsimp only at hok
  repeat'
    first
      | cases hok
      | split at hok
  all_goals
    obtain ⟨h1, -, -, -⟩ := buildFinish_ok_spec _ _ _ _ _ _ _ _ _ _ rfl hok
    rw [h1]
    first
      | exact (uri_map_nodup
          (collect_tracks_ids c.top_tracks_for_artist _ opts).1).sublist
          (trim_tracks_sublist _ _)
      | exact (((shuffle_perm rng _ hshuf).map to_track_uri).nodup_iff.mpr
          (uri_map_nodup
            (collect_tracks_ids c.top_tracks_for_artist _ opts).1)).sublist
          (trim_tracks_sublist _ _)

/-- Witness for C4 at a concrete collector run and a concrete build. -/
theorem C4_track_ids_witness :
    rDry.prepared_track_uris.Nodup ∧
    ((collect_tracks cT.top_tracks_for_artist [⟨"m1", "Metallica"⟩] oT).1.map
      Track.id).Nodup :=
  ⟨C4_track_ids.2 cT rng0 oT "d" rDry [] (fun l => List.Perm.refl l) rfl,
   (C4_track_ids.1 cT.top_tracks_for_artist [⟨"m1", "Metallica"⟩] oT).1⟩

/-! ### C9: the normalizer and idempotence

The counterexample: the feat-clause strip (step 7 of the pipeline) runs
*before* dashes are collapsed to spaces (step 8) and before the character
filter (step 10), so a first pass can create a whitespace-preceded `feat`
token that only a second pass removes. -/

/-- C9 counterexample: `normalize("x-feat y") = "x feat y"` but a second
application strips the now-whitespace-preceded feat clause, yielding `"x"`. -/
theorem C9_counterexample :
    normalize_track_name (normalize_track_name "x-feat y") ≠
      normalize_track_name "x-feat y" ∧
    normalize_track_name "x-feat y" = "x feat y" ∧
    normalize_track_name (normalize_track_name "x-feat y") = "x" := by
  refine ⟨?_, by decide, by decide⟩
  decide

/-- The character alphabet a normalized title can actually contain: the
allow-list of the final filter minus `ё`, `ї`, `й`, which the earlier
accent-stripping / replacement steps always eliminate. -/
def isCanonChar (c : Char) : Bool :=
  isAllowChar c && !(c.toNat = 0x451) && !(c.toNat = 0x457) && !(c.toNat = 0x439)


theorem char_toNat_inj {c d : Char} (h : c.toNat = d.toNat) : c = d := by
  have h2 := congrArg Char.ofNat h
  rwa [Char.ofNat_toNat, Char.ofNat_toNat] at h2

/-- Arithmetic characterization of the canonical alphabet. -/
theorem canon_ranges {c : Char} (h : isCanonChar c = true) :
    (0x30 ≤ c.toNat ∧ c.toNat ≤ 0x39) ∨ (0x61 ≤ c.toNat ∧ c.toNat ≤ 0x7A) ∨
    (0x430 ≤ c.toNat ∧ c.toNat ≤ 0x44F ∧ c.toNat ≠ 0x439) ∨
    c.toNat = 0x456 ∨ c.toNat = 0x491 := by
  simp only [isCanonChar, isAllowChar, Bool.and_eq_true, Bool.or_eq_true,
    decide_eq_true_eq, Bool.not_eq_true', decide_eq_false_iff_not] at h
  omega

theorem canon_not_ws {c : Char} (h : isCanonChar c = true) : isPyWs c = false := by
  rw [Bool.eq_false_iff]
  intro hc
  simp only [isPyWs, Bool.or_eq_true, decide_eq_true_eq] at hc
  have hn := canon_ranges h
  rcases hc with ((((he | he) | he) | he) | he) | he <;>
    (rw [he] at hn; revert hn; decide)

theorem canon_word_char {c : Char} (h : isCanonChar c = true) :
    isWordChar c = true := by
  have hn := canon_ranges h
  simp only [isWordChar, Bool.or_eq_true, Bool.and_eq_true, decide_eq_true_eq,
    Bool.not_eq_true', decide_eq_false_iff_not]
  omega

theorem canon_casefold {c : Char} (h : isCanonChar c = true ∨ c = ' ') :
    caseFoldChar c = c := by
  rcases h with h | h
  · have hn := canon_ranges h
    simp only [caseFoldChar]
    repeat rw [if_neg (by omega)]
  · subst h; decide

theorem canon_nfkd {c : Char} (h : isCanonChar c = true ∨ c = ' ') :
    nfkdChar c = [c] ∧ isCombining c = false := by
  rcases h with h | h
  · have hn := canon_ranges h
    constructor
    · simp only [nfkdChar]
      repeat rw [if_neg (by omega)]
    · rw [Bool.eq_false_iff]
      intro hc
      simp only [isCombining, Bool.and_eq_true, decide_eq_true_eq] at hc
      omega
  · subst h; exact ⟨rfl, rfl⟩

theorem canon_not_quote {c : Char} (h : isCanonChar c = true ∨ c = ' ') :
    isQuoteChar c = false := by
  rw [Bool.eq_false_iff]
  intro hc
  simp only [isQuoteChar, Bool.or_eq_true, decide_eq_true_eq] at hc
  rcases h with h | h
  · have hn := canon_ranges h
    omega
  · subst h; revert hc; decide

theorem canon_not_bracket {c : Char} (h : isCanonChar c = true ∨ c = ' ') :
    isBracketChar c = false := by
  rw [Bool.eq_false_iff]
  intro hc
  simp only [isBracketChar, Bool.or_eq_true, decide_eq_true_eq] at hc
  rcases h with h | h
  · have hn := canon_ranges h
    omega
  · subst h; revert hc; decide

theorem canon_not_dash {c : Char} (h : isCanonChar c = true ∨ c = ' ') :
    isDash8 c = false := by
  rw [Bool.eq_false_iff]
  intro hc
  simp only [isDash8, isDash6, Bool.or_eq_true, decide_eq_true_eq] at hc
  rcases h with h | h
  · have hn := canon_ranges h
    rcases hc with ((he | he) | he) | he
    · rw [he] at hn; revert hn; decide
    · omega
    · omega
    · rw [he] at hn; revert hn; decide
  · subst h; revert hc; decide

theorem canon_not_e451 {c : Char} (h : isCanonChar c = true) :
    (c.toNat = 0x451) = False := by
  have hn := canon_ranges h
  simp only [eq_iff_iff, iff_false]
  omega

/-- A word of a normalized title: non-empty, canonical characters only. -/
def CanonWord (w : List Char) : Prop :=
  w ≠ [] ∧ ∀ c ∈ w, isCanonChar c = true

/-- Every character of `l` is canonical or a space. -/
def CanonChars (l : List Char) : Prop :=
  ∀ c ∈ l, isCanonChar c = true ∨ c = ' '

theorem joinSpace_two (w x : List Char) (ws : List (List Char)) :
    joinSpace (w :: x :: ws) = w ++ ' ' :: joinSpace (x :: ws) := rfl

theorem mem_joinSpace {ws : List (List Char)} {c : Char}
    (h : c ∈ joinSpace ws) : c = ' ' ∨ ∃ w ∈ ws, c ∈ w := by
  induction ws with
  | nil => cases h
  | cons w rest ih =>
    cases rest with
    | nil =>
      exact Or.inr ⟨w, List.mem_cons_self w [], h⟩
    | cons x rs =>
      rw [joinSpace_two] at h
      rcases List.mem_append.mp h with h | h
      · exact Or.inr ⟨w, List.mem_cons_self _ _, h⟩
      · rcases List.mem_cons.mp h with h | h
        · exact Or.inl h
        · rcases ih h with h | ⟨w', hw', hc⟩
          · exact Or.inl h
          · exact Or.inr ⟨w', List.mem_cons_of_mem _ hw', hc⟩

theorem joinSpace_canonChars {ws : List (List Char)}
    (h : ∀ w ∈ ws, CanonWord w) : CanonChars (joinSpace ws) := by
  intro c hc
  rcases mem_joinSpace hc with h' | ⟨w, hw, hcw⟩
  · exact Or.inr h'
  · exact Or.inl ((h w hw).2 c hcw)

theorem map_self {α : Type} (f : α → α) :
    ∀ l : List α, (∀ c ∈ l, f c = c) → l.map f = l
  | [], _ => rfl
  | c :: cs, h => by
    simp only [List.map_cons]
    rw [h c (List.mem_cons_self _ _), map_self f cs
      (fun x hx => h x (List.mem_cons_of_mem _ hx))]

theorem stripAccentsL_id {l : List Char} (h : CanonChars l) :
    stripAccentsL l = l := by
  induction l with
  | nil => rfl
  | cons c cs ih =>
    have hc := canon_nfkd (h c (List.mem_cons_self _ _))
    have ih' := ih (fun x hx => h x (List.mem_cons_of_mem _ hx))
    simp only [stripAccentsL, List.flatMap_cons, List.filter_append] at *
    rw [hc.1]
    simp only [List.filter_cons, hc.2, Bool.not_false, if_true,
      List.filter_nil]
    simp only [List.cons_append, List.nil_append]
    rw [ih']

theorem sub8Aux_id {l : List Char} (h : ∀ c ∈ l, isDash8 c = false) :
    ∀ pend, sub8Aux false pend l = pend.reverse ++ l := by
  induction l with
  | nil => intro pend; simp [sub8Aux]
  | cons c cs ih =>
    intro pend
    have hd := h c (List.mem_cons_self _ _)
    have ih' := ih (fun x hx => h x (List.mem_cons_of_mem _ hx))
    by_cases hw : isPyWs c = true
    · simp only [sub8Aux, hw, if_true]
      rw [ih' (c :: pend)]
      simp
    · simp only [sub8Aux, hw, if_false, Bool.not_eq_true] at *
      rw [if_neg (by simp [hw]), if_neg (by simp [hd])]
      rw [ih' []]
      simp

theorem sub10Aux_word {u tail : List Char}
    (h : ∀ c ∈ u, isAllowChar c = true) :
    sub10Aux false (u ++ tail) = u ++ sub10Aux false tail := by
  induction u with
  | nil => rfl
  | cons c cs ih =>
    simp only [List.cons_append, sub10Aux, h c (List.mem_cons_self _ _),
      if_true]
    exact congrArg (fun t => c :: t)
      (ih (fun x hx => h x (List.mem_cons_of_mem _ hx)))

theorem sub10Aux_ws_step (l : List Char) :
    sub10Aux false (' ' :: l) = ' ' :: sub10Aux true l := by
  have h : isAllowChar ' ' = false := by decide
  simp [sub10Aux, h]

theorem sub10Aux_allow_step (b : Bool) {c : Char} (l : List Char)
    (h : isAllowChar c = true) : sub10Aux b (c :: l) = c :: sub10Aux false l := by
  simp [sub10Aux, h]

theorem canon_allow {c : Char} (h : isCanonChar c = true) :
    isAllowChar c = true := by
  simp only [isCanonChar, Bool.and_eq_true] at h
  exact h.1.1.1

theorem sub10Aux_join {ws : List (List Char)} (h : ∀ w ∈ ws, CanonWord w) :
    sub10Aux false (joinSpace ws) = joinSpace ws := by
  induction ws with
  | nil => rfl
  | cons w rest ih =>
    have hw := h w (List.mem_cons_self _ _)
    have hall : ∀ c ∈ w, isAllowChar c = true :=
      fun c hc => canon_allow (hw.2 c hc)
    cases rest with
    | nil =>
      have : joinSpace [w] = w ++ ([] : List Char) := by simp [joinSpace]
      rw [this, sub10Aux_word hall]
      rfl
    | cons x rs =>
      rw [joinSpace_two, sub10Aux_word hall]
      congr 1
      have hx := h x (List.mem_cons_of_mem _ (List.mem_cons_self _ _))
      obtain ⟨c0, u, hxe⟩ : ∃ c0 u, x = c0 :: u := by
        cases x with
        | nil => exact absurd rfl hx.1
        | cons c0 u => exact ⟨c0, u, rfl⟩
      have hc0 : isAllowChar c0 = true := by
        refine canon_allow (hx.2 c0 ?_)
        rw [hxe]; exact List.mem_cons_self _ _
      obtain ⟨t, hJ⟩ : ∃ t, joinSpace (x :: rs) = c0 :: t := by
        cases rs with
        | nil => exact ⟨u, by simp [joinSpace, hxe]⟩
        | cons y ys => exact ⟨u ++ ' ' :: joinSpace (y :: ys),
            by rw [joinSpace_two, hxe]; simp⟩
      have hflag : sub10Aux true (joinSpace (x :: rs)) =
          sub10Aux false (joinSpace (x :: rs)) := by
        rw [hJ, sub10Aux_allow_step true t hc0, sub10Aux_allow_step false t hc0]
      rw [sub10Aux_ws_step]
      congr 1
      rw [hflag]
      exact ih (fun w' hw' => h w' (List.mem_cons_of_mem _ hw'))

theorem pySplitAux_chew {u : List Char} (h : ∀ c ∈ u, isPyWs c = false) :
    ∀ tail acc, pySplitAux (u ++ tail) acc = pySplitAux tail (u.reverse ++ acc) := by
  induction u with
  | nil => intro tail acc; rfl
  | cons c cs ih =>
    intro tail acc
    have hc := h c (List.mem_cons_self _ _)
    simp only [List.cons_append, pySplitAux, hc, Bool.false_eq_true, if_false]
    refine (ih (fun x hx => h x (List.mem_cons_of_mem _ hx)) tail (c :: acc)).trans ?_
    simp

theorem pySplit_join {ws : List (List Char)} (h : ∀ w ∈ ws, CanonWord w) :
    pySplitL (joinSpace ws) = ws := by
  induction ws with
  | nil => rfl
  | cons w rest ih =>
    have hw := h w (List.mem_cons_self _ _)
    have hnws : ∀ c ∈ w, isPyWs c = false :=
      fun c hc => canon_not_ws (hw.2 c hc)
    cases rest with
    | nil =>
      have h1 : joinSpace [w] = w ++ ([] : List Char) := by simp [joinSpace]
      rw [pySplitL, h1, pySplitAux_chew hnws]
      simp only [pySplitAux, List.append_nil, List.isEmpty_eq_true,
        List.reverse_eq_nil_iff]
      rw [if_neg hw.1]
      simp
    | cons x rs =>
      rw [pySplitL, joinSpace_two, pySplitAux_chew hnws]
      have hsp : isPyWs ' ' = true := by decide
      simp only [pySplitAux, hsp, if_true, List.append_nil]
      rw [if_neg (by simp [hw.1])]
      simp only [List.reverse_reverse]
      rw [← pySplitL, ih (fun w' hw' => h w' (List.mem_cons_of_mem _ hw'))]

theorem canon_not_dash6 {c : Char} (h : isCanonChar c = true ∨ c = ' ') :
    isDash6 c = false := by
  have h8 := canon_not_dash h
  simp only [isDash8, Bool.or_eq_false_iff] at h8
  exact h8.1

theorem matchDashClause_none {l : List Char} (h : CanonChars l) :
    matchDashClause l = none := by
  unfold matchDashClause
  have hsub : ∀ c ∈ l.dropWhile isPyWs, isCanonChar c = true ∨ c = ' ' :=
    fun c hc => h c ((List.dropWhile_suffix isPyWs).sublist.subset hc)
  cases hd : l.dropWhile isPyWs with
  | nil => rfl
  | cons d rest =>
    have hdm : isCanonChar d = true ∨ d = ' ' := by
      refine hsub d ?_
      rw [hd]; exact List.mem_cons_self _ _
    simp [canon_not_dash6 hdm]

theorem sub6F_id {l : List Char} (h : CanonChars l) :
    ∀ n, sub6F n l = l := by
  induction l with
  | nil => intro n; cases n <;> rfl
  | cons c cs ih =>
    intro n
    cases n with
    | zero => rfl
    | succ m =>
      have hm := matchDashClause_none h
      simp only [sub6F, hm]
      rw [ih (fun x hx => h x (List.mem_cons_of_mem _ hx)) m]

theorem suffix_append_cases {α : Type} {t xs ys : List α} (h : t <:+ xs ++ ys) :
    t <:+ ys ∨ ∃ u, u <:+ xs ∧ t = u ++ ys := by
  obtain ⟨s, hs⟩ := h
  rcases List.append_eq_append_iff.mp hs with ⟨a2, ha1, ha2⟩ | ⟨c2, hc1, hc2⟩
  · exact Or.inr ⟨a2, ⟨s, ha1.symm⟩, ha2⟩
  · exact Or.inl ⟨c2, hc2.symm⟩

theorem featData_words : ∀ c ∈ ("feat".data), isWordChar c = true := by decide

theorem words9_wordChars : ∀ w ∈ words9, ∀ c ∈ w, isWordChar c = true := by
  decide

/-- A word-character string that is a proper boundary-respecting prefix probe:
if `p` (all word characters) is a prefix of `w ++ tail` where `w` is a word
and `tail` is empty or starts with a space, and `p ≠ w`, then the character
right after the match is a word character (so the `\b` boundary fails). -/
theorem prefix_into_word :
    ∀ (p w tail : List Char), (∀ c ∈ p, isWordChar c = true) →
      (∀ c ∈ w, isWordChar c = true) → (tail = [] ∨ ∃ t', tail = ' ' :: t') →
      p <+: (w ++ tail) → p ≠ w →
      ∃ c2 r3, (w ++ tail).drop p.length = c2 :: r3 ∧ isWordChar c2 = true := by
  intro p
  induction p with
  | nil =>
    intro w tail hp hw htail hpre hne
    cases w with
    | nil => exact absurd rfl hne
    | cons wc w2 =>
      exact ⟨wc, w2 ++ tail, by simp, hw wc (List.mem_cons_self _ _)⟩
  | cons pc p2 ih =>
    intro w tail hp hw htail hpre hne
    cases w with
    | nil =>
      rcases htail with rfl | ⟨t2, rfl⟩
      · rw [List.nil_append] at hpre
        exact absurd (List.prefix_nil.mp hpre) (by simp)
      · rw [List.nil_append] at hpre
        obtain ⟨heq, -⟩ := List.cons_prefix_cons.mp hpre
        have := hp pc (List.mem_cons_self _ _)
        rw [heq] at this
        exact absurd this (by decide)
    | cons wc w2 =>
      rw [List.cons_append] at hpre
      obtain ⟨heq, hpre2⟩ := List.cons_prefix_cons.mp hpre
      subst heq
      have hne2 : p2 ≠ w2 := fun he => hne (by rw [he])
      obtain ⟨c2, r3, hdrop, hword⟩ := ih w2 tail
        (fun c hc => hp c (List.mem_cons_of_mem _ hc))
        (fun c hc => hw c (List.mem_cons_of_mem _ hc)) htail hpre2 hne2
      refine ⟨c2, r3, ?_, hword⟩
      rw [List.cons_append, List.length_cons, List.drop_succ_cons]
      exact hdrop

theorem tryWords_none {ws9 : List (List Char)} {l : List Char}
    (h : ∀ w9 ∈ ws9, w9.isPrefixOf l = true →
      ∃ c2 r3, l.drop w9.length = c2 :: r3 ∧ isWordChar c2 = true) :
    tryWords ws9 l = none := by
  induction ws9 with
  | nil => rfl
  | cons w9 rest ih =>
    have hcond : (w9.isPrefixOf l &&
        (match l.drop w9.length with
         | [] => true
         | c :: _ => !isWordChar c)) = false := by
      by_cases hp : w9.isPrefixOf l = true
      · obtain ⟨c2, r3, hd, hw⟩ := h w9 (List.mem_cons_self _ _) hp
        simp [hp, hd, hw]
      · simp [hp]
    simp only [tryWords, hcond, Bool.false_eq_true, if_false]
    exact ih (fun w hw hp => h w (List.mem_cons_of_mem _ hw) hp)

theorem tryWords9_none_join {w tail : List Char} (hw : CanonWord w)
    (hnot : ¬ w ∈ words9) (htail : tail = [] ∨ ∃ t2, tail = ' ' :: t2) :
    tryWords words9 (w ++ tail) = none := by
  refine tryWords_none (fun w9 hw9 hp => ?_)
  exact prefix_into_word w9 w tail (words9_wordChars w9 hw9)
    (fun c hc => canon_word_char (hw.2 c hc)) htail
    (List.isPrefixOf_iff_prefix.mp hp)
    (fun he => hnot (he ▸ hw9))

theorem matchFeat_none_at_space {w tail : List Char} (hw : CanonWord w)
    (hnf : w ≠ ("feat".data)) (htail : tail = [] ∨ ∃ t2, tail = ' ' :: t2) :
    matchFeatClause (' ' :: (w ++ tail)) = none := by
  obtain ⟨wc, w2, rfl⟩ : ∃ wc w2, w = wc :: w2 := by
    cases w with
    | nil => exact absurd rfl hw.1
    | cons wc w2 => exact ⟨wc, w2, rfl⟩
  have hwc : isPyWs wc = false :=
    canon_not_ws (hw.2 wc (List.mem_cons_self _ _))
  have hr : (' ' :: ((wc :: w2) ++ tail)).dropWhile isPyWs =
      wc :: (w2 ++ tail) := by
    rw [List.dropWhile_cons_of_pos (by decide), List.cons_append,
      List.dropWhile_cons_of_neg (by simp [hwc])]
  by_cases hp : ("feat".data).isPrefixOf (wc :: (w2 ++ tail)) = true
  · obtain ⟨c2, r3, hd, hwd⟩ := prefix_into_word ("feat".data) (wc :: w2) tail
      featData_words (fun c hc => canon_word_char (hw.2 c hc)) htail
      (by rw [List.cons_append]
          exact List.isPrefixOf_iff_prefix.mp hp) (fun he => hnf he.symm)
    rw [List.cons_append] at hd
    simp only [matchFeatClause, hr]
    rw [if_pos (by decide), if_pos hp]
    rw [show ("feat".data).length = 4 from rfl] at hd
    rw [hd]
    split
    · simp_all
    · next heqd =>
      injection heqd with h1 h2
      rw [h1] at hwd
      exact absurd hwd (by decide)
    · next c3 r4 hno heqd =>
      injection heqd with h1 h2
      rw [h1] at hwd
      rw [if_pos hwd]
  · simp only [matchFeatClause, hr]
    rw [if_pos (by decide), if_neg (by simp [hp])]

theorem sub7F_id {l : List Char}
    (h : ∀ t, t <:+ l → matchFeatClause t = none) : ∀ n, sub7F n l = l := by
  induction l with
  | nil => intro n; cases n <;> rfl
  | cons c cs ih =>
    intro n
    cases n with
    | zero => rfl
    | succ m =>
      have hm := h (c :: cs) (List.suffix_refl _)
      simp only [sub7F, hm]
      rw [ih (fun t ht => h t (ht.trans (List.suffix_cons c cs))) m]

/-- A suffix of a space-joined canonical word list that starts with a space
is exactly a space followed by the join of a non-first tail of the words. -/
theorem suffix_space {ws : List (List Char)} {t2 : List Char}
    (hws : ∀ w ∈ ws, CanonWord w) (h : (' ' :: t2) <:+ joinSpace ws) :
    ∃ pre w rest, ws = pre ++ w :: rest ∧ pre ≠ [] ∧
      t2 = joinSpace (w :: rest) := by
  induction ws with
  | nil => exact absurd (List.suffix_nil.mp h) (by simp)
  | cons w rest ih =>
    cases rest with
    | nil =>
      have hsp : ' ' ∈ w := h.sublist.subset (List.mem_cons_self _ _)
      have := (hws w (List.mem_cons_self _ _)).2 ' ' hsp
      exact absurd this (by decide)
    | cons x rs =>
      rw [joinSpace_two] at h
      have hxs : ∀ w2 ∈ x :: rs, CanonWord w2 :=
        fun w2 hw2 => hws w2 (List.mem_cons_of_mem _ hw2)
      rcases suffix_append_cases h with h2 | ⟨u, hu, heq⟩
      · rcases List.suffix_cons_iff.mp h2 with heq | h3
        · injection heq with h1 h4
          exact ⟨[w], x, rs, rfl, by simp, h4⟩
        · obtain ⟨pre, w2, rest2, hwe, hpre, ht⟩ := ih hxs h3
          refine ⟨w :: pre, w2, rest2, ?_, by simp, ht⟩
          rw [List.cons_append, hwe]
      · cases u with
        | nil =>
          rw [List.nil_append] at heq
          injection heq with h1 h4
          exact ⟨[w], x, rs, rfl, by simp, h4⟩
        | cons uh u2 =>
          rw [List.cons_append] at heq
          injection heq with h1 h4
          have huh : uh ∈ w := hu.sublist.subset (List.mem_cons_self _ _)
          have := (hws w (List.mem_cons_self _ _)).2 uh huh
          rw [← h1] at this
          exact absurd this (by decide)

theorem mem_drop_one {α : Type} {ws pre : List α} {w : α} {rest : List α}
    (h : ws = pre ++ w :: rest) (hp : pre ≠ []) : w ∈ ws.drop 1 := by
  cases pre with
  | nil => exact absurd rfl hp
  | cons p pre2 =>
    subst h
    simp

theorem noFeat_join {ws : List (List Char)} (hws : ∀ w ∈ ws, CanonWord w)
    (hsafe : ∀ w ∈ ws.drop 1, w ≠ ("feat".data)) :
    ∀ t, t <:+ joinSpace ws → matchFeatClause t = none := by
  intro t ht
  cases t with
  | nil => rfl
  | cons c t2 =>
    have hc : isCanonChar c = true ∨ c = ' ' :=
      joinSpace_canonChars hws c (ht.sublist.subset (List.mem_cons_self _ _))
    rcases hc with hc | rfl
    · have := canon_not_ws hc
      simp [matchFeatClause, this]
    · obtain ⟨pre, w, rest, hwseq, hpre, ht2⟩ := suffix_space hws ht
      have hw : CanonWord w := by
        refine hws w ?_
        rw [hwseq]
        exact List.mem_append.mpr (Or.inr (List.mem_cons_self _ _))
      have hnf : w ≠ ("feat".data) := hsafe w (mem_drop_one hwseq hpre)
      rw [ht2]
      cases rest with
      | nil =>
        have he : joinSpace [w] = w ++ ([] : List Char) := by simp [joinSpace]
        rw [he]
        exact matchFeat_none_at_space hw hnf (Or.inl rfl)
      | cons y ys =>
        rw [joinSpace_two]
        exact matchFeat_none_at_space hw hnf (Or.inr ⟨_, rfl⟩)

theorem sub9F_chew {u : List Char} (hu : ∀ c ∈ u, isWordChar c = true) :
    ∀ {tail : List Char}, (∀ m, sub9F m true tail = tail) →
      ∀ n, sub9F n true (u ++ tail) = u ++ tail := by
  induction u with
  | nil => intro tail htail n; exact htail n
  | cons c cs ih =>
    intro tail htail n
    cases n with
    | zero => rfl
    | succ m =>
      simp only [List.cons_append, sub9F, Bool.not_true, Bool.false_eq_true,
        if_false]
      rw [hu c (List.mem_cons_self _ _)]
      exact congrArg (fun t => c :: t)
        (ih (fun x hx => hu x (List.mem_cons_of_mem _ hx)) htail m)

theorem sub9F_join {ws : List (List Char)} (hws : ∀ w ∈ ws, CanonWord w)
    (hsafe : ∀ w ∈ ws, ¬ w ∈ words9) :
    ∀ n, sub9F n false (joinSpace ws) = joinSpace ws := by
  induction ws with
  | nil => intro n; cases n <;> rfl
  | cons w rest ih =>
    intro n
    have hw : CanonWord w := hws w (List.mem_cons_self _ _)
    have hwrd : ∀ c ∈ w, isWordChar c = true :=
      fun c hc => canon_word_char (hw.2 c hc)
    obtain ⟨wc, w2, rfl⟩ : ∃ wc w2, w = wc :: w2 := by
      cases w with
      | nil => exact absurd rfl hw.1
      | cons wc w2 => exact ⟨wc, w2, rfl⟩
    have hrest : ∀ w2 ∈ rest, CanonWord w2 :=
      fun x hx => hws x (List.mem_cons_of_mem _ hx)
    have hsrest : ∀ w2 ∈ rest, ¬ w2 ∈ words9 :=
      fun x hx => hsafe x (List.mem_cons_of_mem _ hx)
    have htailJ : ∃ tail, joinSpace ((wc :: w2) :: rest) = (wc :: w2) ++ tail ∧
        (tail = [] ∨ ∃ t2, tail = ' ' :: t2) ∧
        (∀ m, sub9F m true tail = tail) := by
      cases rest with
      | nil =>
        refine ⟨[], by simp [joinSpace], Or.inl rfl, fun m => ?_⟩
        cases m <;> rfl
      | cons y ys =>
        refine ⟨' ' :: joinSpace (y :: ys), by rw [joinSpace_two], Or.inr ⟨_, rfl⟩,
          fun m => ?_⟩
        cases m with
        | zero => rfl
        | succ m2 =>
          simp only [sub9F, Bool.not_true, Bool.false_eq_true, if_false]
          rw [show isWordChar ' ' = false from by decide]
          rw [ih hrest hsrest m2]
    obtain ⟨tail, hJ, hshape, htail⟩ := htailJ
    have hkey : tryWords words9 ((wc :: w2) ++ tail) = none :=
      tryWords9_none_join hw (hsafe _ (List.mem_cons_self _ _)) hshape
    rw [hJ]
    cases n with
    | zero => rfl
    | succ m =>
      simp only [List.cons_append, sub9F, Bool.not_false, if_true]
      have hkey2 : tryWords words9 (wc :: List.append w2 tail) = none := hkey
      rw [hkey2]
      show wc :: sub9F m (isWordChar wc) (List.append w2 tail) =
        wc :: w2 ++ tail
      rw [hwrd wc (List.mem_cons_self _ _)]
      exact congrArg (fun t => wc :: t)
        (sub9F_chew (fun x hx => hwrd x (List.mem_cons_of_mem _ hx)) htail m)

theorem tryWords_suffix {ws : List (List Char)} {l r : List Char}
    (h : tryWords ws l = some r) : r <:+ l := by
  induction ws with
  | nil => cases h
  | cons w rest ih =>
    simp only [tryWords] at h
    split at h
    · injection h with h1
      subst h1
      exact List.drop_suffix _ _
    · exact ih h

theorem matchDashClause_suffix {l r : List Char}
    (h : matchDashClause l = some r) : r <:+ l := by
  unfold matchDashClause at h
  cases hd : l.dropWhile isPyWs with
  | nil => rw [hd] at h; cases h
  | cons d rest =>
    rw [hd] at h
    dsimp only at h
    by_cases hdash : isDash6 d = true
    · rw [if_pos hdash] at h
      cases htw : tryWords words6 (rest.dropWhile isPyWs) with
      | none => rw [htw] at h; cases h
      | some rest3 =>
        rw [htw] at h
        injection h with h1
        subst h1
        have h4 : rest <:+ l :=
          (List.suffix_cons d rest).trans (hd ▸ List.dropWhile_suffix isPyWs)
        exact (List.dropWhile_suffix _).trans
          ((tryWords_suffix htw).trans ((List.dropWhile_suffix _).trans h4))
    · rw [if_neg hdash] at h; cases h

theorem matchFeatClause_suffix {l r : List Char}
    (h : matchFeatClause l = some r) : r <:+ l := by
  unfold matchFeatClause at h
  cases l with
  | nil => cases h
  | cons c cs =>
    dsimp only at h
    by_cases hws : isPyWs c = true
    · rw [if_pos hws] at h
      by_cases hp : ("feat".data).isPrefixOf ((c :: cs).dropWhile isPyWs) = true
      · rw [if_pos hp] at h
        have hsufw : (c :: cs).dropWhile isPyWs <:+ c :: cs :=
          List.dropWhile_suffix isPyWs
        have hsuf4 : ((c :: cs).dropWhile isPyWs).drop 4 <:+ c :: cs :=
          (List.drop_suffix _ _).trans hsufw
        cases hdrop : ((c :: cs).dropWhile isPyWs).drop 4 with
        | nil =>
          rw [hdrop] at h
          injection h with h1
          subst h1
          exact List.nil_suffix
        | cons c2 r3 =>
          rw [hdrop] at h
          rw [hdrop] at hsuf4
          split at h
          · next x1 heqd => exact absurd heqd (by simp)
          · next x4 r4 heqd =>
            injection h with h1
            subst h1
            injection heqd with h2 h3
            subst h3
            exact (List.dropWhile_suffix _).trans
              ((List.suffix_cons _ _).trans hsuf4)
          · next x5 c4 r4 hno heqd =>
            split at h
            · cases h
            · injection h with h1
              subst h1
              exact (List.dropWhile_suffix _).trans (heqd ▸ hsuf4)
      · rw [if_neg hp] at h; cases h
    · rw [if_neg hws] at h; cases h

theorem sub6F_subset : ∀ (n : Nat) (l : List Char) (c : Char),
    c ∈ sub6F n l → c ∈ l := by
  intro n
  induction n with
  | zero => intro l c h; exact h
  | succ m ih =>
    intro l c h
    cases l with
    | nil => cases h
    | cons a cs =>
      cases hm : matchDashClause (a :: cs) with
      | some rest =>
        simp only [sub6F, hm] at h
        exact (matchDashClause_suffix hm).sublist.subset (ih rest c h)
      | none =>
        simp only [sub6F, hm] at h
        rcases List.mem_cons.mp h with rfl | h2
        · exact List.mem_cons_self _ _
        · exact List.mem_cons_of_mem _ (ih cs c h2)

theorem sub7F_subset : ∀ (n : Nat) (l : List Char) (c : Char),
    c ∈ sub7F n l → c ∈ l := by
  intro n
  induction n with
  | zero => intro l c h; exact h
  | succ m ih =>
    intro l c h
    cases l with
    | nil => cases h
    | cons a cs =>
      cases hm : matchFeatClause (a :: cs) with
      | some rest =>
        simp only [sub7F, hm] at h
        exact (matchFeatClause_suffix hm).sublist.subset (ih rest c h)
      | none =>
        simp only [sub7F, hm] at h
        rcases List.mem_cons.mp h with rfl | h2
        · exact List.mem_cons_self _ _
        · exact List.mem_cons_of_mem _ (ih cs c h2)

theorem sub9F_subset : ∀ (n : Nat) (b : Bool) (l : List Char) (c : Char),
    c ∈ sub9F n b l → c ∈ l := by
  intro n
  induction n with
  | zero => intro b l c h; exact h
  | succ m ih =>
    intro b l c h
    cases l with
    | nil => cases h
    | cons a cs =>
      cases b with
      | true =>
        simp only [sub9F, Bool.not_true, Bool.false_eq_true, if_false] at h
        rcases List.mem_cons.mp h with rfl | h2
        · exact List.mem_cons_self _ _
        · exact List.mem_cons_of_mem _ (ih _ cs c h2)
      | false =>
        cases hm : tryWords words9 (a :: cs) with
        | some rest =>
          simp only [sub9F, Bool.not_false, if_true, hm] at h
          exact (tryWords_suffix hm).sublist.subset (ih _ rest c h)
        | none =>
          simp only [sub9F, Bool.not_false, if_true, hm] at h
          rcases List.mem_cons.mp h with rfl | h2
          · exact List.mem_cons_self _ _
          · exact List.mem_cons_of_mem _ (ih _ cs c h2)

theorem sub8Aux_subset : ∀ (l : List Char) (b : Bool) (pend : List Char)
    (c : Char), c ∈ sub8Aux b pend l → c ∈ pend ∨ c ∈ l ∨ c = ' ' := by
  intro l
  induction l with
  | nil =>
    intro b pend c h
    simp only [sub8Aux] at h
    exact Or.inl (List.mem_reverse.mp h)
  | cons a cs ih =>
    intro b pend c h
    by_cases hws : isPyWs a = true
    · cases b with
      | true =>
        simp only [sub8Aux, hws, if_true] at h
        rcases ih true [] c h with h2 | h2 | h2
        · cases h2
        · exact Or.inr (Or.inl (List.mem_cons_of_mem _ h2))
        · exact Or.inr (Or.inr h2)
      | false =>
        simp only [sub8Aux, hws, if_true] at h
        rcases ih false (a :: pend) c h with h2 | h2 | h2
        · rcases List.mem_cons.mp h2 with rfl | h3
          · exact Or.inr (Or.inl (List.mem_cons_self _ _))
          · exact Or.inl h3
        · exact Or.inr (Or.inl (List.mem_cons_of_mem _ h2))
        · exact Or.inr (Or.inr h2)
    · by_cases hd : isDash8 a = true
      · simp only [sub8Aux, hws, Bool.false_eq_true, if_false, hd, if_true] at h
        rcases List.mem_cons.mp h with rfl | h2
        · exact Or.inr (Or.inr rfl)
        · rcases ih true [] c h2 with h3 | h3 | h3
          · cases h3
          · exact Or.inr (Or.inl (List.mem_cons_of_mem _ h3))
          · exact Or.inr (Or.inr h3)
      · simp only [sub8Aux, hws, Bool.false_eq_true, if_false, hd] at h
        rcases List.mem_append.mp h with h2 | h2
        · exact Or.inl (List.mem_reverse.mp h2)
        · rcases List.mem_cons.mp h2 with rfl | h3
          · exact Or.inr (Or.inl (List.mem_cons_self _ _))
          · rcases ih false [] c h3 with h4 | h4 | h4
            · cases h4
            · exact Or.inr (Or.inl (List.mem_cons_of_mem _ h4))
            · exact Or.inr (Or.inr h4)

theorem sub10Aux_subset : ∀ (l : List Char) (b : Bool) (c : Char),
    c ∈ sub10Aux b l → (c ∈ l ∧ isAllowChar c = true) ∨ c = ' ' := by
  intro l
  induction l with
  | nil => intro b c h; cases h
  | cons a cs ih =>
    intro b c h
    by_cases ha : isAllowChar a = true
    · simp only [sub10Aux, ha, if_true] at h
      rcases List.mem_cons.mp h with rfl | h2
      · exact Or.inl ⟨List.mem_cons_self _ _, ha⟩
      · rcases ih false c h2 with ⟨h3, h4⟩ | h3
        · exact Or.inl ⟨List.mem_cons_of_mem _ h3, h4⟩
        · exact Or.inr h3
    · cases b with
      | true =>
        simp only [sub10Aux, ha, Bool.false_eq_true, if_false, if_true] at h
        rcases ih true c h with ⟨h3, h4⟩ | h3
        · exact Or.inl ⟨List.mem_cons_of_mem _ h3, h4⟩
        · exact Or.inr h3
      | false =>
        simp only [sub10Aux, ha, Bool.false_eq_true, if_false] at h
        rcases List.mem_cons.mp h with rfl | h2
        · exact Or.inr rfl
        · rcases ih true c h2 with ⟨h3, h4⟩ | h3
          · exact Or.inl ⟨List.mem_cons_of_mem _ h3, h4⟩
          · exact Or.inr h3

theorem stripAccents_noBad {l : List Char} :
    ∀ c ∈ stripAccentsL l,
      c.toNat ≠ 0x451 ∧ c.toNat ≠ 0x457 ∧ c.toNat ≠ 0x439 := by
  intro c hc
  simp only [stripAccentsL, List.mem_filter, List.mem_flatMap] at hc
  obtain ⟨⟨a, ha, hca⟩, -⟩ := hc
  simp only [nfkdChar] at hca
  by_cases h1 : a.toNat = 0x451
  · rw [if_pos h1] at hca
    simp only [List.mem_cons, List.not_mem_nil, or_false] at hca
    rcases hca with rfl | rfl <;> exact ⟨by decide, by decide, by decide⟩
  rw [if_neg h1] at hca
  by_cases h2 : a.toNat = 0x439
  · rw [if_pos h2] at hca
    simp only [List.mem_cons, List.not_mem_nil, or_false] at hca
    rcases hca with rfl | rfl <;> exact ⟨by decide, by decide, by decide⟩
  rw [if_neg h2] at hca
  by_cases h3 : a.toNat = 0x457
  · rw [if_pos h3] at hca
    simp only [List.mem_cons, List.not_mem_nil, or_false] at hca
    rcases hca with rfl | rfl <;> exact ⟨by decide, by decide, by decide⟩
  rw [if_neg h3] at hca
  by_cases h4 : a.toNat = 0x450
  · rw [if_pos h4] at hca
    simp only [List.mem_cons, List.not_mem_nil, or_false] at hca
    rcases hca with rfl | rfl <;> exact ⟨by decide, by decide, by decide⟩
  rw [if_neg h4] at hca
  by_cases h5 : a.toNat = 0x45D
  · rw [if_pos h5] at hca
    simp only [List.mem_cons, List.not_mem_nil, or_false] at hca
    rcases hca with rfl | rfl <;> exact ⟨by decide, by decide, by decide⟩
  rw [if_neg h5] at hca
  by_cases h6 : 0xE0 ≤ a.toNat ∧ a.toNat ≤ 0xE5
  · rw [if_pos h6] at hca
    simp only [List.mem_cons, List.not_mem_nil, or_false] at hca
    rcases hca with rfl | rfl <;> exact ⟨by decide, by decide, by decide⟩
  rw [if_neg h6] at hca
  by_cases h7 : a.toNat = 0xE7
  · rw [if_pos h7] at hca
    simp only [List.mem_cons, List.not_mem_nil, or_false] at hca
    rcases hca with rfl | rfl <;> exact ⟨by decide, by decide, by decide⟩
  rw [if_neg h7] at hca
  by_cases h8 : 0xE8 ≤ a.toNat ∧ a.toNat ≤ 0xEB
  · rw [if_pos h8] at hca
    simp only [List.mem_cons, List.not_mem_nil, or_false] at hca
    rcases hca with rfl | rfl <;> exact ⟨by decide, by decide, by decide⟩
  rw [if_neg h8] at hca
  by_cases h9 : 0xEC ≤ a.toNat ∧ a.toNat ≤ 0xEF
  · rw [if_pos h9] at hca
    simp only [List.mem_cons, List.not_mem_nil, or_false] at hca
    rcases hca with rfl | rfl <;> exact ⟨by decide, by decide, by decide⟩
  rw [if_neg h9] at hca
  by_cases h10 : a.toNat = 0xF1
  · rw [if_pos h10] at hca
    simp only [List.mem_cons, List.not_mem_nil, or_false] at hca
    rcases hca with rfl | rfl <;> exact ⟨by decide, by decide, by decide⟩
  rw [if_neg h10] at hca
  by_cases h11 : 0xF2 ≤ a.toNat ∧ a.toNat ≤ 0xF6
  · rw [if_pos h11] at hca
    simp only [List.mem_cons, List.not_mem_nil, or_false] at hca
    rcases hca with rfl | rfl <;> exact ⟨by decide, by decide, by decide⟩
  rw [if_neg h11] at hca
  by_cases h12 : 0xF9 ≤ a.toNat ∧ a.toNat ≤ 0xFC
  · rw [if_pos h12] at hca
    simp only [List.mem_cons, List.not_mem_nil, or_false] at hca
    rcases hca with rfl | rfl <;> exact ⟨by decide, by decide, by decide⟩
  rw [if_neg h12] at hca
  by_cases h13 : a.toNat = 0xFD ∨ a.toNat = 0xFF
  · rw [if_pos h13] at hca
    simp only [List.mem_cons, List.not_mem_nil, or_false] at hca
    rcases hca with rfl | rfl <;> exact ⟨by decide, by decide, by decide⟩
  rw [if_neg h13] at hca
  simp only [List.mem_cons, List.not_mem_nil, or_false] at hca
  subst hca
  exact ⟨h1, h3, h2⟩

theorem pySplitAux_words : ∀ (l acc w : List Char),
    w ∈ pySplitAux l acc →
      w ≠ [] ∧ ∀ c ∈ w, (c ∈ l ∧ isPyWs c = false) ∨ c ∈ acc := by
  intro l
  induction l with
  | nil =>
    intro acc w hw
    simp only [pySplitAux] at hw
    by_cases hacc : acc.isEmpty = true
    · rw [if_pos hacc] at hw
      cases hw
    · rw [if_neg hacc] at hw
      rcases List.mem_singleton.mp hw with rfl
      refine ⟨?_, fun c hc => Or.inr (List.mem_reverse.mp hc)⟩
      simp only [List.isEmpty_eq_true] at hacc
      simp [hacc]
  | cons a cs ih =>
    intro acc w hw
    by_cases hws : isPyWs a = true
    · simp only [pySplitAux, hws, if_true] at hw
      by_cases hacc : acc.isEmpty = true
      · rw [if_pos hacc] at hw
        obtain ⟨hne, hch⟩ := ih [] w hw
        refine ⟨hne, fun c hc => ?_⟩
        rcases hch c hc with ⟨h1, h2⟩ | h1
        · exact Or.inl ⟨List.mem_cons_of_mem _ h1, h2⟩
        · cases h1
      · rw [if_neg hacc] at hw
        rcases List.mem_cons.mp hw with rfl | hw2
        · refine ⟨?_, fun c hc => Or.inr (List.mem_reverse.mp hc)⟩
          simp only [List.isEmpty_eq_true] at hacc
          simp [hacc]
        · obtain ⟨hne, hch⟩ := ih [] w hw2
          refine ⟨hne, fun c hc => ?_⟩
          rcases hch c hc with ⟨h1, h2⟩ | h1
          · exact Or.inl ⟨List.mem_cons_of_mem _ h1, h2⟩
          · cases h1
    · simp only [pySplitAux, hws, Bool.false_eq_true, if_false] at hw
      obtain ⟨hne, hch⟩ := ih (a :: acc) w hw
      refine ⟨hne, fun c hc => ?_⟩
      rcases hch c hc with ⟨h1, h2⟩ | h1
      · exact Or.inl ⟨List.mem_cons_of_mem _ h1, h2⟩
      · rcases List.mem_cons.mp h1 with rfl | h2
        · exact Or.inl ⟨List.mem_cons_self _ _,
            Bool.not_eq_true _ ▸ by simpa using hws⟩
        · exact Or.inr h2

theorem canon_of_parts {c : Char} (ha : isAllowChar c = true)
    (h1 : c.toNat ≠ 0x451) (h2 : c.toNat ≠ 0x457) (h3 : c.toNat ≠ 0x439) :
    isCanonChar c = true := by
  simp [isCanonChar, ha, h1, h2, h3]

theorem normalize_char_facts (s : String) :
    ∃ t10, normalize_track_name s = ⟨joinSpace (pySplitL t10)⟩ ∧
      ∀ c ∈ t10, (isAllowChar c = true ∧ c.toNat ≠ 0x451 ∧ c.toNat ≠ 0x457 ∧
        c.toNat ≠ 0x439) ∨ c = ' ' := by
  refine ⟨_, rfl, ?_⟩
  intro c hc
  rcases sub10Aux_subset _ _ _ hc with ⟨hc9, hallow⟩ | rfl
  · left
    have hc8 := sub9F_subset _ _ _ _ hc9
    rcases sub8Aux_subset _ _ _ _ hc8 with hpend | hc7 | rfl
    · cases hpend
    · have hc6 := sub7F_subset _ _ _ hc7
      have hc5 := sub6F_subset _ _ _ hc6
      rcases List.mem_map.mp hc5 with ⟨a, ha4, hfa⟩
      by_cases hbr : isBracketChar a = true
      · rw [if_pos hbr] at hfa
        rw [← hfa] at hallow
        exact absurd hallow (by decide)
      · rw [if_neg hbr] at hfa
        subst hfa
        have hc3 := (List.mem_filter.mp ha4).1
        rcases List.mem_map.mp hc3 with ⟨b, hb2, hfb⟩
        by_cases hyo : b.toNat = 0x451
        · rw [if_pos hyo] at hfb
          refine ⟨hallow, ?_, ?_, ?_⟩ <;> (rw [← hfb]; decide)
        · rw [if_neg hyo] at hfb
          subst hfb
          have hbb := stripAccents_noBad b hb2
          exact ⟨hallow, hbb.1, hbb.2.1, hbb.2.2⟩
    · exact absurd hallow (by decide)
  · exact Or.inr rfl

theorem normalize_decomp (s : String) :
    (∀ w ∈ pySplitL (normalize_track_name s).data, CanonWord w) ∧
    (normalize_track_name s).data =
      joinSpace (pySplitL (normalize_track_name s).data) := by
  obtain ⟨t10, he, hch⟩ := normalize_char_facts s
  have hws : ∀ w ∈ pySplitL t10, CanonWord w := by
    intro w hw
    obtain ⟨hne, hchw⟩ := pySplitAux_words t10 [] w hw
    refine ⟨hne, fun c hc => ?_⟩
    rcases hchw c hc with ⟨h1, h2⟩ | h1
    · rcases hch c h1 with ⟨ha, hb1, hb2, hb3⟩ | rfl
      · exact canon_of_parts ha hb1 hb2 hb3
      · exact absurd h2 (by decide)
    · cases h1
  have hdata : (normalize_track_name s).data = joinSpace (pySplitL t10) := by
    rw [he]
  have hsplit : pySplitL (normalize_track_name s).data = pySplitL t10 := by
    rw [hdata, pySplit_join hws]
  constructor
  · rw [hsplit]; exact hws
  · rw [hdata, pySplit_join hws]

/-- A string whose split decomposition is canonical, space-joined, and free
of the step-7/step-9 trigger words is a fixed point of the normalizer. -/
theorem normalize_fix {t : String}
    (hcanon : ∀ w ∈ pySplitL t.data, CanonWord w)
    (hdata : t.data = joinSpace (pySplitL t.data))
    (hsafe9 : ∀ w ∈ pySplitL t.data, ¬ w ∈ words9)
    (hsafef : ∀ w ∈ (pySplitL t.data).drop 1, w ≠ ("feat".data)) :
    normalize_track_name t = t := by
  have hCC : CanonChars t.data := by
    rw [hdata]; exact joinSpace_canonChars hcanon
  have h1 : t.data.map caseFoldChar = t.data :=
    map_self _ _ (fun c hc => canon_casefold (hCC c hc))
  have h2 : stripAccentsL t.data = t.data := stripAccentsL_id hCC
  have h3 : t.data.map
      (fun c => if c.toNat = 0x451 then Char.ofNat 0x435 else c) = t.data := by
    refine map_self _ _ (fun c hc => ?_)
    rcases hCC c hc with h | rfl
    · rw [if_neg (fun hh => (canon_not_e451 h) ▸ hh)]
    · rw [if_neg (by decide)]
  have h4 : t.data.filter (fun c => !isQuoteChar c) = t.data := by
    refine List.filter_eq_self.mpr (fun c hc => ?_)
    rw [canon_not_quote (hCC c hc)]
    rfl
  have h5 : t.data.map
      (fun c => if isBracketChar c then ' ' else c) = t.data := by
    refine map_self _ _ (fun c hc => ?_)
    rw [if_neg (by simp [canon_not_bracket (hCC c hc)])]
  have h6 : ∀ n, sub6F n t.data = t.data := sub6F_id hCC
  have h7 : ∀ n, sub7F n t.data = t.data := by
    refine sub7F_id (fun u hu => ?_)
    refine noFeat_join hcanon hsafef u ?_
    rw [← hdata]
    exact hu
  have h8 : sub8Aux false [] t.data = t.data := by
    have h := sub8Aux_id (fun c hc => canon_not_dash (hCC c hc)) []
    simpa using h
  have h9 : ∀ n, sub9F n false t.data = t.data := by
    intro n
    have h := sub9F_join hcanon hsafe9 n
    rw [← hdata] at h
    exact h
  have h10 : sub10Aux false t.data = t.data := by
    have h := sub10Aux_join hcanon
    rw [← hdata] at h
    exact h
  simp only [normalize_track_name]
  rw [h1, h2, h3, h4, h5, h6, h7, h8, h9, h10, ← hdata]

/-- The condition under which one normalizer pass is a fixed point: the
normalized title contains no standalone annotation word of the step-9
alternation at any position, and no `feat` token after the first position. -/
def SafeTitle (t : String) : Prop :=
  (∀ w ∈ pySplit t, ¬ w.data ∈ words9) ∧
  (∀ w ∈ (pySplit t).drop 1, w ≠ "feat")

instance (t : String) : Decidable (SafeTitle t) := by
  unfold SafeTitle
  infer_instance

/-- C9 (amended): the normalizer is idempotent on every input whose first
pass yields a title free of step-7/step-9 trigger tokens — the normalized
title has no standalone annotation word (`acoustic`, …, `explicit`) at any
position and no `feat` token after the first position.  (Unconditional
idempotence fails: see the counterexample.) -/
theorem C9_amended_idempotent (s : String)
    (h : SafeTitle (normalize_track_name s)) :
    normalize_track_name (normalize_track_name s) = normalize_track_name s := by
  obtain ⟨hcanon, hdata⟩ := normalize_decomp s
  refine normalize_fix hcanon hdata ?_ ?_
  · intro w hw hmem
    refine h.1 ⟨w⟩ ?_ ?_
    · exact List.mem_map.mpr ⟨w, hw, rfl⟩
    · exact hmem
  · intro w hw he
    refine h.2 ⟨w⟩ ?_ (by rw [he])
    have hd : (pySplit (normalize_track_name s)).drop 1 =
        ((pySplitL (normalize_track_name s).data).drop 1).map
          (fun w => (⟨w⟩ : String)) := by
      simp [pySplit, List.map_drop]
    rw [hd]
    exact List.mem_map.mpr ⟨w, hw, rfl⟩

/-- Witness: `"Hello World"` normalizes to a safe title, and the amended
idempotence theorem applies to it. -/
theorem C9_amended_idempotent_witness :
    SafeTitle (normalize_track_name "Hello World") ∧
    normalize_track_name (normalize_track_name "Hello World") =
      normalize_track_name "Hello World" :=
  ⟨by decide, C9_amended_idempotent "Hello World" (by decide)⟩
